import Mathlib

/-!
Verification development for the SelectGenreElectronApp rule-based renaming
engine.  The definitions below are shallow embeddings of the JavaScript in
`src/src/index.js` and `src/unnamed/part_001` (the final revision of the main
process, containing the grouped numbering resolver), plus a spec-modelled
genre-cleanup rule whose renderer-side implementation is not part of the
sources.  Machine-level details that the claims do not touch (ID3 byte I/O,
Electron plumbing, the web scraper) are not modelled.

All functions are written with structural recursion (loops are given explicit
fuel equal to a bound that the source loop provably respects) so that every
definition evaluates inside the kernel.
-/

/-! ## Character and string helpers (JS string primitives) -/

/-- ASCII lower-casing of a string, modelling JS `toLowerCase` for the ASCII
range used by lyric searches. -/
def toLowerStr (s : String) : String := ⟨s.data.map Char.toLower⟩

/-- Whitespace trim on both ends, modelling JS `trim`. -/
def trimStr (s : String) : String :=
  ⟨((s.data.dropWhile Char.isWhitespace).reverse.dropWhile Char.isWhitespace).reverse⟩

/-- `containsSub pat s` models JS `s.includes(pat)` on char lists. -/
def containsSub (pat : List Char) : List Char → Bool
  | [] => pat.isEmpty
  | c :: cs => pat.isPrefixOf (c :: cs) || containsSub pat cs

/-- Fuel-driven worker for global replacement; fuel is consumed one unit per
step so the definition is structurally recursive and kernel-evaluable. -/
def replaceGo (pat repl : List Char) : Nat → List Char → List Char
  | 0, s => s
  | _ + 1, [] => []
  | f + 1, c :: cs =>
    if pat.isPrefixOf (c :: cs) && !pat.isEmpty then
      repl ++ replaceGo pat repl f ((c :: cs).drop pat.length)
    else
      c :: replaceGo pat repl f cs

/-- `replaceL pat repl s` models JS `s.replace(new RegExp(pat, 'g'), repl)` for
a literal pattern: every non-overlapping occurrence of `pat` in `s`, scanned
left to right, is replaced by `repl`. -/
def replaceL (pat repl s : List Char) : List Char :=
  replaceGo pat repl s.length s

/-- String wrapper for `replaceL`. -/
def replaceStr (pat repl s : String) : String := ⟨replaceL pat.data repl.data s.data⟩

/-- Numeric value of a list of decimal digit characters (JS `parseInt` on an
all-digit string). -/
def parseDigits (ds : List Char) : Nat :=
  ds.foldl (fun n c => n * 10 + (c.toNat - 48)) 0

/-- Left pad with zeros to width `w`, modelling JS `padStart(w, '0')`. -/
def padStartZeros (w : Nat) (ds : List Char) : List Char :=
  List.replicate (w - ds.length) '0' ++ ds

/-! ## Template renderer (`processTemplate` in both source files) -/

/-- The variable bag built by the preview/apply handlers: exactly the six keys
`number, artist, title, album, genre, year`, in this insertion order. -/
structure Vars where
  number : Nat
  artist : String
  title : String
  album : String
  genre : String
  year : Nat
deriving DecidableEq, Repr

/-- Try to match the padding directive regex `\x7bnumber:(\d+)d\x7d` at the head of
`s`; on success return the captured width and the characters after the
directive. -/
def padHere (s : List Char) : Option (Nat × List Char) :=
  let pfx := "\x7bnumber:".data
  if pfx.isPrefixOf s then
    let t := s.drop pfx.length
    let d := t.takeWhile Char.isDigit
    if !d.isEmpty && ("d\x7d".data.isPrefixOf (t.drop d.length)) then
      some (parseDigits d, t.drop (d.length + 2))
    else none
  else none

/-- First match of the padding directive anywhere in `s` (JS
`result.match(/\x7bnumber:(\d+)d\x7d/)`): prefix before the match, captured width,
suffix after the match. -/
def padScan : List Char → Option (List Char × Nat × List Char)
  | [] => none
  | c :: cs =>
    match padHere (c :: cs) with
    | some (w, rest) => some ([], w, rest)
    | none => (padScan cs).map (fun x => (c :: x.1, x.2.1, x.2.2))

/-- The numbered-formatting pass at the end of `processTemplate`: the first
`\x7bnumber:NNd\x7d` directive is replaced by the bag's `number` value left-padded
with zeros to width NN. -/
def applyPad (s : String) (n : Nat) : String :=
  match padScan s.data with
  | some (before, w, after) => ⟨before ++ padStartZeros w (toString n).data ++ after⟩
  | none => s

/-- The value substituted for the genre key: a non-empty (truthy) genre string
has every `;` turned into `,` first. -/
def genreValue (g : String) : String := if g = "" then g else replaceStr ";" "," g

/-- The `Object.keys(variables).forEach` pass of `processTemplate`: each bag
key's `\x7bkey\x7d` placeholder is replaced by the key's value, in the bag's
insertion order `number, artist, title, album, genre, year`. -/
def substVars (template : String) (v : Vars) : String :=
  replaceStr "\x7byear\x7d" (toString v.year)
    (replaceStr "\x7bgenre\x7d" (genreValue v.genre)
      (replaceStr "\x7balbum\x7d" v.album
        (replaceStr "\x7btitle\x7d" v.title
          (replaceStr "\x7bartist\x7d" v.artist
            (replaceStr "\x7bnumber\x7d" (toString v.number) template)))))

/-- `processTemplate(template, variables)` from the source: empty/absent
template renders as `""`; otherwise the variable pass runs, then the padding
directive is applied using the bag's `number`. -/
def processTemplate (template : String) (v : Vars) : String :=
  if template = "" then ""
  else applyPad (substVars template v) v.number

/-! ## Data model (tracks, rules, match entries) -/

/-- A track record as assembled by `read-mp3-metadata` and consumed by the
naming handlers.  `trackNumber` holds `parseInt(file.trackNumber)` when that is
a number (`none` models both an absent field and NaN); `year` is optional
because the handlers substitute the current year for a falsy `file.year`. -/
structure Track where
  filePath : String
  filename : String
  title : String
  artist : String
  album : String
  genre : String
  lyrics : String
  year : Option Nat
  trackNumber : Option Nat
deriving DecidableEq, Repr

/-- A naming rule.  `lyricSearch` keeps the legacy single-phrase field (the
empty string models a falsy/absent value); `lyricSearches` is the current
list form. -/
structure Rule where
  id : Nat
  lyricSearches : List String
  lyricSearch : String
  artistTemplate : String
  songTemplate : String
  albumTemplate : String
  filenameTemplate : String
  startNumber : Nat
deriving DecidableEq, Repr

/-- Legacy upconversion at the top of both handlers: use `lyricSearches` when
non-empty, else wrap a truthy legacy `lyricSearch` into a one-element list. -/
def effectiveSearches (r : Rule) : List String :=
  if r.lyricSearch ≠ "" ∧ r.lyricSearches = [] then [r.lyricSearch]
  else r.lyricSearches

/-- `validSearches`: drop blank search phrases. -/
def validSearchesOf (r : Rule) : List String :=
  (effectiveSearches r).filter (fun s => trimStr s ≠ "")

/-- The inner match test: the lower-cased lyrics contain at least one of the
lower-cased search phrases. -/
def anyMatch (valid : List String) (lyrics : String) : Bool :=
  valid.any (fun s => containsSub (toLowerStr s).data (toLowerStr lyrics).data)

/-- Whether a rule participates in claiming a track: it has at least one valid
search phrase and one of them occurs in the track's lyrics.  Used to state the
first-matching-rule ownership property. -/
def matchesRule (r : Rule) (f : Track) : Bool :=
  !(validSearchesOf r).isEmpty && anyMatch (validSearchesOf r) f.lyrics

/-- The variable bag built for a matched file (`number` is the placeholder `1`
in the collect phase of `part_001`; `cy` models `new Date().getFullYear()`). -/
def mkVars (f : Track) (cy : Nat) (number : Nat) : Vars :=
  Vars.mk number
    (if f.artist = "" then "Unknown Artist" else f.artist)
    (if f.title = "" then "Unknown Title" else f.title)
    (if f.album = "" then "Unknown Album" else f.album)
    (if f.genre = "" then "Unknown" else f.genre)
    (match f.year with
     | none => cy
     | some y => if y = 0 then cy else y)

/-- A `matchEntry` pushed onto `allMatches` and into the album-group map.
`idx` models JavaScript object identity (the `assigned` sets of the resolvers
hold object references); each entry gets a fresh index. -/
structure MEntry where
  idx : Nat
  file : Track
  rule : Rule
  targetAlbum : String
  vars : Vars
deriving DecidableEq, Repr

/-- `parseInt(entry.file.trackNumber) || 0`: the recorded track number as a
`Nat`, with 0 for absent/NaN. -/
def tnNat (e : MEntry) : Nat := e.file.trackNumber.getD 0

/-! ## Collect phase of `preview-naming-changes` / `apply-naming-changes`
(`part_001` lines 186-269 and 417-499).  Both handlers run the same loop; the
only difference is the `targetAlbum` grouping key, so the per-file worker takes
the key builder of the respective handler as an argument and each handler
instantiates it with its own key expression, exactly as read off the source. -/

/-- Per-rule file scan: skip files claimed by earlier rules (`processedFiles`)
or already claimed within this rule (`ruleProcessedFiles`); on a lyric match
create the entry, append it to `allMatches`, and record the path in both sets. -/
def collectFiles (albumKey : Rule → Vars → String) (r : Rule) (valid : List String)
    (cy : Nat) :
    List Track → List String → List String → List MEntry → List String × List MEntry
  | [], processed, _, acc => (processed, acc)
  | f :: fs, processed, ruleProc, acc =>
    if f.filePath ∈ processed then
      collectFiles albumKey r valid cy fs processed ruleProc acc
    else if f.filePath ∈ ruleProc then
      collectFiles albumKey r valid cy fs processed ruleProc acc
    else if anyMatch valid f.lyrics then
      let vars := mkVars f cy 1
      let e : MEntry := MEntry.mk acc.length f r (albumKey r vars) vars
      collectFiles albumKey r valid cy fs (processed ++ [f.filePath])
        (ruleProc ++ [f.filePath]) (acc ++ [e])
    else
      collectFiles albumKey r valid cy fs processed ruleProc acc

/-- Rule loop: rules with no valid searches are skipped (`continue`); the
cross-rule `processedFiles` set persists, the per-rule set starts empty. -/
def collectRules (albumKey : Rule → Vars → String) (cy : Nat) (files : List Track) :
    List Rule → List String → List MEntry → List MEntry
  | [], _, acc => acc
  | r :: rs, processed, acc =>
    let valid := validSearchesOf r
    if valid = [] then collectRules albumKey cy files rs processed acc
    else
      let st := collectFiles albumKey r valid cy files processed [] acc
      collectRules albumKey cy files rs st.1 st.2

/-- Preview handler grouping key: `RULE_${rule.id}` (line 244). -/
def previewKey (r : Rule) (_ : Vars) : String := "RULE_" ++ toString r.id

/-- Apply handler grouping key: `processTemplate(rule.albumTemplate || '\x7balbum\x7d',
variables)` (line 474). -/
def applyKey (r : Rule) (v : Vars) : String :=
  processTemplate (if r.albumTemplate = "" then "\x7balbum\x7d" else r.albumTemplate) v

/-- `allMatches` of the preview handler. -/
def collectPreview (rules : List Rule) (files : List Track) (cy : Nat) : List MEntry :=
  collectRules previewKey cy files rules [] []

/-- `allMatches` of the apply handler. -/
def collectApply (rules : List Rule) (files : List Track) (cy : Nat) : List MEntry :=
  collectRules applyKey cy files rules [] []

/-- Append an entry to the album-group map (`albumGroupsMap`), preserving key
insertion order and per-key entry order, exactly as a JS `Map` of arrays. -/
def assocAppend (gs : List (String × List MEntry)) (k : String) (e : MEntry) :
    List (String × List MEntry) :=
  match gs with
  | [] => [(k, [e])]
  | (k', es) :: rest =>
    if k' = k then (k', es ++ [e]) :: rest else (k', es) :: assocAppend rest k e

/-- The album-group map rebuilt from `allMatches` (the handlers fill the map in
the same push order as `allMatches`). -/
def groupsOf (entries : List MEntry) : List (String × List MEntry) :=
  entries.foldl (fun gs e => assocAppend gs e.targetAlbum e) []

/-! ## Rendered output records -/

/-- One element of `results.matches` / `previewResult.matches`: the rendered
values pushed when an entry is assigned a number.  `number` is the value of
`entry.variables.number` at the moment the record is pushed (the JS record
aliases the live `variables` object, which only differs when the resolver's
duplicate-emission bug re-assigns the same entry; the rendered strings are
fixed at push time either way). -/
structure MatchRec where
  originalFilename : String
  originalPath : String
  newFilename : String
  newArtist : String
  newTitle : String
  newAlbum : String
  originalArtist : String
  originalTitle : String
  originalAlbum : String
  ruleId : Nat
  number : Nat
deriving DecidableEq, Repr

/-- Render an entry once its number is assigned (`entry.variables.number = ct`
followed by the four `processTemplate` calls and the `||` fallbacks of the
push). -/
def mkRec (e : MEntry) (ct : Nat) : MatchRec :=
  let v := Vars.mk ct e.vars.artist e.vars.title e.vars.album e.vars.genre e.vars.year
  let na := processTemplate e.rule.artistTemplate v
  let nt := processTemplate e.rule.songTemplate v
  let nal := processTemplate e.rule.albumTemplate v
  let nf := processTemplate e.rule.filenameTemplate v ++ ".mp3"
  MatchRec.mk e.file.filename e.file.filePath
    (if nf = "" then e.file.filename else nf)
    (if na = "" then e.file.artist else na)
    (if nt = "" then e.file.title else nt)
    (if nal = "" then e.file.album else nal)
    e.file.artist e.file.title e.file.album e.rule.id ct

/-! ## Numbering resolver of the apply handler (`part_001` lines 508-633) -/

/-- Insert a claimant into `trackNumberMap`. -/
def tnMapAppend (m : List (Nat × List MEntry)) (k : Nat) (e : MEntry) :
    List (Nat × List MEntry) :=
  match m with
  | [] => [(k, [e])]
  | (k', es) :: rest =>
    if k' = k then (k', es ++ [e]) :: rest else (k', es) :: tnMapAppend rest k e

/-- `assigned.add(idx)` on a JS `Set` modelled as a duplicate-free list. -/
def addAssigned (assigned : List Nat) (i : Nat) : List Nat :=
  if i ∈ assigned then assigned else assigned ++ [i]

/-- Branch 3 of the apply resolver's while loop: `maxEntry` starts at
`withTrack[0]` (with `maxNum` its parsed number) and is replaced by any entry
that is not yet assigned and has a strictly larger number.  Note that the
initial `withTrack[0]` is taken without an `assigned` check, exactly as in the
source. -/
def maxScanA (wt : List MEntry) (assigned : List Nat) : Option MEntry :=
  match wt with
  | [] => none
  | e0 :: _ =>
    some (wt.foldl
      (fun best e => if e.idx ∉ assigned ∧ tnNat best < tnNat e then e else best) e0)

/-- The apply resolver's `while (assigned.size < totalToAssign)` loop.  Each
iteration runs exactly one of the three branches (or none, when `withTrack` is
empty and `withoutTrack` is drained) and increments `currentTrack`; fuel bounds
the iteration count. -/
def loopA (wt : List MEntry) (total : Nat) :
    Nat → Nat → List Nat → List MEntry → List MatchRec → List MatchRec
  | 0, _, _, _, acc => acc
  | fuel + 1, ct, assigned, wo, acc =>
    if assigned.length < total then
      match wt.find? (fun e => tnNat e == ct) with
      | some e =>
        loopA wt total fuel (ct + 1) (addAssigned assigned e.idx) wo (acc ++ [mkRec e ct])
      | none =>
        match wo with
        | e :: rest =>
          loopA wt total fuel (ct + 1) (addAssigned assigned e.idx) rest (acc ++ [mkRec e ct])
        | [] =>
          match maxScanA wt assigned with
          | some m =>
            loopA wt total fuel (ct + 1) (addAssigned assigned m.idx) [] (acc ++ [mkRec m ct])
          | none => loopA wt total fuel (ct + 1) assigned [] acc
    else acc

/-- One `albumFiles.forEach` step of the apply resolver's split phase. -/
def splitStep (st : List (Nat × List MEntry) × List MEntry) (e : MEntry) :
    List (Nat × List MEntry) × List MEntry :=
  if 0 < tnNat e then (tnMapAppend st.1 (tnNat e) e, st.2)
  else (st.1, st.2 ++ [e])

/-- Split phase of the apply resolver (`part_001` lines 514-539): entries with
a positive parsed track number are collected into `trackNumberMap` (key order =
first-claim order, claimants per key in encounter order), the rest go to
`withoutTrack`; then per key the first claimant joins `withTrack` and the
remaining claimants are appended to `withoutTrack`, in key order. -/
def splitApply (g : List MEntry) : List MEntry × List MEntry :=
  let st := g.foldl splitStep ([], [])
  let wt := st.1.filterMap (fun p => p.2.head?)
  let losers := (st.1.map (fun p => p.2.drop 1)).flatten
  (wt, st.2 ++ losers)

/-- `highestTrackNumber` over the deduplicated `withTrack` list. -/
def highestTn (wt : List MEntry) : Nat := wt.foldl (fun h e => max h (tnNat e)) 0

/-- The full apply-handler numbering resolver on one album group.  The fuel
`highest + total + 1` is an upper bound on the number of loop iterations: every
`withTrack` entry is in `assigned` once `currentTrack` has passed its own
number, after which `withoutTrack` drains one entry per iteration. -/
def applyResolve (g : List MEntry) : List MatchRec :=
  let s := splitApply g
  let total := s.1.length + s.2.length
  loopA s.1 total (highestTn s.1 + total + 1) 1 [] s.2 []

/-! ## Numbering resolver of the preview handler (`part_001` lines 271-395) -/

/-- Split phase of the preview resolver: `trackNumberMap` keeps only the first
claimant of each number, later claimants go to `duplicates`, numberless entries
to `withoutTrack`; afterwards `withoutTrack = withoutTrack.concat(duplicates)`.
`withTrack` lists the map's entries in first-claim order. -/
def splitPreview (g : List MEntry) :
    List (Nat × MEntry) × List MEntry × List MEntry :=
  let st := g.foldl
    (fun (st : List (Nat × MEntry) × List MEntry × List MEntry × List MEntry) e =>
      if 0 < tnNat e then
        if (st.1.find? (fun p => p.1 == tnNat e)).isSome then
          (st.1, st.2.1, st.2.2.1, st.2.2.2 ++ [e])
        else
          (st.1 ++ [(tnNat e, e)], st.2.1 ++ [e], st.2.2.1, st.2.2.2)
      else
        (st.1, st.2.1, st.2.2.1 ++ [e], st.2.2.2))
    ([], [], [], [])
  (st.1, st.2.1, st.2.2.1 ++ st.2.2.2)

/-- Branch 3 of the preview resolver: the scan over `withTrack` has no
`assigned` check (the list itself is filtered after each assignment). -/
def maxScanP (wt : List MEntry) : Option MEntry :=
  match wt with
  | [] => none
  | e0 :: _ =>
    some (wt.foldl (fun best e => if tnNat best < tnNat e then e else best) e0)

/-- The preview resolver's `while (withTrack.length + withoutTrack.length > 0)`
loop; branch 1 looks the current number up in `trackNumberMap` and filters the
found entry out of `withTrack`.  The source also maintains an `assigned` set
here, but the preview loop only reads it in a `console.log`, so it is omitted;
`highestTrackNumber` is likewise log-only and enters only through the fuel
bound. -/
def loopP (tnMap : List (Nat × MEntry)) :
    Nat → Nat → List MEntry → List MEntry → List MatchRec → List MatchRec
  | 0, _, _, _, acc => acc
  | fuel + 1, ct, wt, wo, acc =>
    if 0 < wt.length + wo.length then
      match tnMap.find? (fun p => p.1 == ct) with
      | some p =>
        loopP tnMap fuel (ct + 1) (wt.filter (fun x => x.idx != p.2.idx)) wo
          (acc ++ [mkRec p.2 ct])
      | none =>
        match wo with
        | e :: rest => loopP tnMap fuel (ct + 1) wt rest (acc ++ [mkRec e ct])
        | [] =>
          match maxScanP wt with
          | some m =>
            loopP tnMap fuel (ct + 1) (wt.filter (fun x => x.idx != m.idx)) []
              (acc ++ [mkRec m ct])
          | none => loopP tnMap fuel (ct + 1) wt [] acc
    else acc

/-- The full preview-handler numbering resolver on one album group. -/
def previewResolve (g : List MEntry) : List MatchRec :=
  let s := splitPreview g
  let total := s.2.1.length + s.2.2.length
  loopP s.1 ((highestTn s.2.1) + total + 1) 1 s.2.1 s.2.2 []

/-! ## Full compute pipelines of the two handlers -/

/-- `preview-naming-changes`: collect, group by `RULE_${id}`, number and render
each group with the preview resolver, concatenate in group order. -/
def previewNaming (rules : List Rule) (files : List Track) (cy : Nat) : List MatchRec :=
  ((groupsOf (collectPreview rules files cy)).map (fun p => previewResolve p.2)).flatten

/-- The compute phase of `apply-naming-changes` (everything before the
filesystem loop): collect, group by the rendered album template, number and
render each group with the apply resolver. -/
def applyNamingCompute (rules : List Rule) (files : List Track) (cy : Nat) : List MatchRec :=
  ((groupsOf (collectApply rules files cy)).map (fun p => applyResolve p.2)).flatten

/-! ## Concrete fixtures used by counterexamples and witnesses -/

/-- A plain track with a path, lyrics and an optional recorded track number. -/
def mkTrack (p lyr : String) (tn : Option Nat) : Track :=
  Track.mk p (p ++ ".mp3") ("T" ++ p) ("A" ++ p) ("L" ++ p) "G" lyr none tn

/-- A resolver-input entry with identity `i` and recorded number `tn`. -/
def mkEntry (i : Nat) (p : String) (tn : Option Nat) : MEntry :=
  MEntry.mk i (mkTrack p "" tn) (Rule.mk 1 ["a"] "" "" "" "Alb" "F\x7bnumber\x7d" 1)
    "Alb" (mkVars (mkTrack p "" tn) 2024 1)

/-- Path and assigned number of a rendered record. -/
def pn (r : MatchRec) : String × Nat := (r.originalPath, r.number)

/-- A resolver-input entry whose owning rule has `startNumber = 3`, to show
that the resolver never consults `startNumber`. -/
def entryS (i : Nat) (p : String) (tn : Option Nat) : MEntry :=
  MEntry.mk i (mkTrack p "" tn) (Rule.mk 1 ["a"] "" "" "" "Alb" "F\x7bnumber\x7d" 3)
    "Alb" (mkVars (mkTrack p "" tn) 2024 1)

/-- Two rules whose album templates render to the same constant name. -/
def ruleOne : Rule := Rule.mk 1 ["a"] "" "" "" "A" "F\x7bnumber\x7d" 1

/-- Second rule, matching a different phrase, same rendered album name. -/
def ruleTwo : Rule := Rule.mk 2 ["b"] "" "" "" "A" "F\x7bnumber\x7d" 1

/-- Track matched only by `ruleOne`. -/
def trackOne : Track := mkTrack "p1" "zaz" none

/-- Track matched only by `ruleTwo`. -/
def trackTwo : Track := mkTrack "p2" "zbz" none

/-- A second rule that also matches `trackOne` (its lyrics contain `z`). -/
def ruleZ : Rule := Rule.mk 2 ["z"] "" "" "" "A" "F\x7bnumber\x7d" 1

/-! ## Conflict-safe rename of `src/src/index.js` (lines 378-419)

The orchestrator reconstructs a regex from the rendered filename: the first
digit run of the name (without its `.mp3` extension) is generalized to a
capture group, every other character is escaped to a literal.  Existing `.mp3`
files whose names match the pattern contribute their captured number to
`usedNumbers`; the filename is re-rendered with the lowest integer
`>= rule.startNumber` not in that set. -/

/-- Strip the `.mp3` extension (`path.parse(name).name` for a name that passed
the `endsWith('.mp3')` filter). -/
def stripMp3 (s : String) : List Char :=
  (s.data.reverse.drop ".mp3".length).reverse

/-- Does the filename end in `.mp3`? -/
def endsWithMp3 (s : String) : Bool :=
  ".mp3".data.reverse.isPrefixOf s.data.reverse

/-- Split a name at its first digit run: `some (before, run, after)` with
`name = before ++ run ++ after`, `before` digit-free, `run` a non-empty maximal
digit run (so `after` starts with a non-digit or is empty).  `none` when the
name has no digit (then the constructed regex has no capture group and no file
contributes a number). -/
def splitFirstDigitRun : List Char → Option (List Char × List Char × List Char)
  | [] => none
  | c :: cs =>
    if c.isDigit then
      some ([], (c :: cs).takeWhile Char.isDigit, (c :: cs).dropWhile Char.isDigit)
    else
      (splitFirstDigitRun cs).map (fun x => (c :: x.1, x.2.1, x.2.2))

/-- Drop a literal prefix, or fail. -/
def dropPre : List Char → List Char → Option (List Char)
  | [], s => some s
  | _ :: _, [] => none
  | p :: ps, c :: cs => if p = c then dropPre ps cs else none

/-- Match a name against the regex `^before(\d+)after$` (with `before`/`after`
escaped to literals) and return the captured number. -/
def captureNum (before after name : List Char) : Option Nat :=
  match dropPre before name with
  | none => none
  | some rest =>
    let d := rest.takeWhile Char.isDigit
    if d.isEmpty then none
    else if rest.dropWhile Char.isDigit = after then some (parseDigits d)
    else none

/-- `while (usedNumbers.has(nextNumber)) nextNumber++`, with fuel
`used.length + 1` (enough because at most `used.length` values can be
skipped). -/
def nextAvailGo (used : List Nat) : Nat → Nat → Nat
  | 0, n => n
  | f + 1, n => if n ∈ used then nextAvailGo used f (n + 1) else n

/-- Lowest integer `>= start` not in `used`. -/
def nextAvail (used : List Nat) (start : Nat) : Nat :=
  nextAvailGo used (used.length + 1) start

/-- The used numbers collected from the directory listing for the structural
pattern of `newFilename`. -/
def usedNumbersOf (listing : List String) (newFilename : String) : List Nat :=
  match splitFirstDigitRun (stripMp3 newFilename) with
  | none => []
  | some (b, _, a) =>
    (listing.filter endsWithMp3).filterMap (fun f => captureNum b a (stripMp3 f))

/-- The conflict-resolution block: collect used numbers, find the next
available number at or above `rule.startNumber`, re-render the filename
template with it and append `.mp3`. -/
def resolveConflictName (listing : List String) (r : Rule) (v : Vars)
    (newFilename : String) : String :=
  let used := usedNumbersOf listing newFilename
  let next := nextAvail used r.startNumber
  processTemplate r.filenameTemplate
    (Vars.mk next v.artist v.title v.album v.genre v.year) ++ ".mp3"

/-! ## Per-file filesystem phase of `apply-naming-changes`
(`part_001` lines 642-766).  The filesystem and tag codec are external
collaborators; their outcomes for one file are summarized in an oracle
record. -/

/-- Outcomes of the external calls made while processing one file. -/
structure FsOutcome where
  fileFound : Bool
  readOk : Bool
  writeOk : Bool
  destTaken : Bool
  renameOk : Bool
  renameMsg : String
deriving DecidableEq, Repr

/-- The per-file element of `results`, plus `fsName`, the name the file
actually carries after the step (unchanged unless a rename succeeded). -/
structure FileResult where
  filename : String
  success : Bool
  error : Option String
  warning : Option String
  newFilename : Option String
  fsName : String
deriving DecidableEq, Repr

/-- One iteration of the apply handler's file loop: existence check, tag read,
tag write, then — only when the rendered name differs — the rename attempt,
using a `Temp_` prefix when the destination is taken; a rename exception after
the successful write yields `success: true` with a warning and the original
name. -/
def applyOneFile (m : MatchRec) (o : FsOutcome) : FileResult :=
  if !o.fileFound then
    FileResult.mk m.originalFilename false (some "File not found") none none
      m.originalFilename
  else if !o.readOk then
    FileResult.mk m.originalFilename false
      (some "Cannot read MP3 metadata - file may be corrupted or not a valid MP3")
      none none m.originalFilename
  else if !o.writeOk then
    FileResult.mk m.originalFilename false
      (some "Cannot write MP3 metadata - file may be read-only or corrupted")
      none none m.originalFilename
  else if m.newFilename ≠ m.originalFilename then
    let finalFilename := if o.destTaken then "Temp_" ++ m.newFilename else m.newFilename
    if !o.renameOk then
      FileResult.mk m.originalFilename true none
        (some ("Metadata updated but file rename failed: " ++ o.renameMsg))
        (some m.originalFilename) m.originalFilename
    else
      FileResult.mk m.originalFilename true none none (some finalFilename) finalFilename
  else
    FileResult.mk m.originalFilename true none none (some m.newFilename)
      m.originalFilename

/-- The file loop: every match is processed in order with its own outcome
record; no failure stops the remaining files. -/
def applyFiles : List MatchRec → List FsOutcome → List FileResult
  | [], _ => []
  | _ :: _, [] => []
  | m :: ms, o :: os => applyOneFile m o :: applyFiles ms os

/-! ## Genre-cleanup rule

Modelled from the spec: the genre-cleanup implementation lives in the
renderer (`index.html`), which is not among the source files; only the README
documents it.  `cleanGenre(currentGenreList, genresToRemove)` returns the set
difference when non-empty; otherwise the original list when it has at most two
genres, and the two shortest (by string length, stably ordered) genres when it
has three or more. -/

/-- Order-preserving set difference. -/
def genreDiff (genres toRemove : List String) : List String :=
  genres.filter (fun g => g ∉ toRemove)

/-- Stable insertion into a length-sorted list (equal lengths keep the earlier
element first). -/
def insertByLen (g : String) : List String → List String
  | [] => [g]
  | h :: t => if g.length < h.length then g :: h :: t else h :: insertByLen g t

/-- Stable sort by string length. -/
def sortByLen : List String → List String
  | [] => []
  | h :: t => insertByLen h (sortByLen t)

/-- The two shortest genres of a list, stably ordered by length. -/
def twoShortest (genres : List String) : List String := (sortByLen genres).take 2

/-- Modelled from the spec: genre cleanup with the minimum-genre-count rule. -/
def cleanGenre (genres toRemove : List String) : List String :=
  let d := genreDiff genres toRemove
  if d ≠ [] then d
  else if genres.length ≤ 2 then genres
  else twoShortest genres

/-- Rule used by the rename-conflict counterexample: the rendered name
`A1B 2` has its first digit run inside `A1B`, not at the number slot. -/
def ruleA1B : Rule := Rule.mk 7 ["x"] "" "" "" "" "A1B \x7bnumber\x7d" 2

/-- Rule of the happy rename-conflict case: the number slot is the first digit
run of the rendered name. -/
def rulePad : Rule := Rule.mk 8 ["x"] "" "" "" "" "\x7bnumber:03d\x7d - X" 5

/-- A fixed variable bag for the conflict scenarios. -/
def varsC : Vars := Vars.mk 2 "A" "T" "L" "G" 2024

/-! ## Derived descriptions used in theorem statements -/

/-- Consecutive numbering of a list of entries starting at `ct`. -/
def numberRecs : Nat → List MEntry → List MatchRec
  | _, [] => []
  | ct, e :: es => mkRec e ct :: numberRecs (ct + 1) es

/-- The records produced for the numbers `s, s+1, ..., s+d-1` by looking each
number up among the numbered entries. -/
def byTn (wt : List MEntry) (s d : Nat) : List MatchRec :=
  (List.range' s d).filterMap
    (fun i => (wt.find? (fun e => tnNat e == i)).map (fun e => mkRec e i))

/-! ## Template syntax (for the renderer claim)

`processTemplate` is a string pipeline; to state what it does on *every*
template we represent a template by its syntax: a sequence of chunks, each a
literal character, a placeholder occurrence of one of the six bag keys, or a
padding directive.  Every template whose opening braces all belong to
placeholders or padding directives decomposes this way. -/

/-- The six variable-bag keys, in the bag's insertion order. -/
inductive VarKey where
  | number
  | artist
  | title
  | album
  | genre
  | year
deriving DecidableEq, Repr

/-- The characters of a key's name. -/
def keyName : VarKey → List Char
  | VarKey.number => "number".data
  | VarKey.artist => "artist".data
  | VarKey.title => "title".data
  | VarKey.album => "album".data
  | VarKey.genre => "genre".data
  | VarKey.year => "year".data

/-- The placeholder pattern `\x7bname\x7d` that the forEach pass of
`processTemplate` replaces for a key. -/
def patOf (k : VarKey) : List Char := '\x7b' :: (keyName k ++ ['\x7d'])

/-- The replacement value a key contributes: `number` and `year` are
stringified, the genre value has its semicolons converted first
(`genreValue`), the other fields are substituted verbatim — exactly the
values the handlers put into the bag positions of `processTemplate`. -/
def valOf (v : Vars) : VarKey → List Char
  | VarKey.number => (toString v.number).data
  | VarKey.artist => v.artist.data
  | VarKey.title => v.title.data
  | VarKey.album => v.album.data
  | VarKey.genre => (genreValue v.genre).data
  | VarKey.year => (toString v.year).data

/-- The keys already handled after the first `n` iterations of the
`Object.keys(variables).forEach` loop: key number `i` (1-based, in insertion
order `number, artist, title, album, genre, year`) is done once `i ≤ n`. -/
def doneAfter (n : Nat) (k : VarKey) : Bool :=
  match k with
  | VarKey.number => Nat.ble 1 n
  | VarKey.artist => Nat.ble 2 n
  | VarKey.title => Nat.ble 3 n
  | VarKey.album => Nat.ble 4 n
  | VarKey.genre => Nat.ble 5 n
  | VarKey.year => Nat.ble 6 n

/-- One syntactic piece of a well-formed template: a literal character (never
an opening brace), a placeholder occurrence of one of the six variables, or a
padding directive `\x7bnumber:DDd\x7d` with digit text `ds`. -/
inductive TChunk where
  | lit : Char → TChunk
  | ph : VarKey → TChunk
  | pad : List Char → TChunk
deriving DecidableEq, Repr

/-- The template text of one chunk. -/
def chunkText : TChunk → List Char
  | TChunk.lit c => [c]
  | TChunk.ph k => patOf k
  | TChunk.pad ds => "\x7bnumber:".data ++ ds ++ "d\x7d".data

/-- The template text of a chunk sequence. -/
def tmplText : List TChunk → List Char
  | [] => []
  | ch :: rest => chunkText ch ++ tmplText rest

/-- Chunk well-formedness: a literal is not an opening brace (so every brace
of the template opens a placeholder or a padding directive) and a padding
width is a non-empty digit string. -/
def chunkWF : TChunk → Bool
  | TChunk.lit c => c != '\x7b'
  | TChunk.ph _ => true
  | TChunk.pad ds => !ds.isEmpty && ds.all Char.isDigit

/-- The template text after the forEach pass has handled the keys selected by
`done`: placeholders of handled keys carry their values, everything else is
still literal template text. -/
def substPartial (v : Vars) (done : VarKey → Bool) : List TChunk → List Char
  | [] => []
  | TChunk.lit c :: rest => c :: substPartial v done rest
  | TChunk.ph k :: rest =>
    (if done k then valOf v k else patOf k) ++ substPartial v done rest
  | TChunk.pad ds :: rest =>
    ("\x7bnumber:".data ++ ds ++ "d\x7d".data) ++ substPartial v done rest

/-- The template text after all six keys have been substituted. -/
def substAll (v : Vars) (cs : List TChunk) : List Char :=
  substPartial v (fun _ => true) cs

/-- Spec-side locator of the first padding directive: the substituted text
before it, its width, and the substituted text after it. -/
def padSplitChunks (v : Vars) : List TChunk → Option (List Char × Nat × List Char)
  | [] => none
  | TChunk.pad ds :: rest => some ([], parseDigits ds, substAll v rest)
  | TChunk.lit c :: rest =>
    (padSplitChunks v rest).map (fun x => (c :: x.1, x.2.1, x.2.2))
  | TChunk.ph k :: rest =>
    (padSplitChunks v rest).map (fun x => (valOf v k ++ x.1, x.2.1, x.2.2))

/-- The specified rendering of a template, written from the spec's words
(for comparison with the source-side `processTemplate`): in one pass over the
template, every occurrence of each key's `\x7bname\x7d` placeholder is replaced by
that key's value (the genre value with `;` converted to `,`), and the first
padding directive, if any, by the bag's number zero-padded to the directive's
width. -/
def renderSpec (v : Vars) (cs : List TChunk) : List Char :=
  match padSplitChunks v cs with
  | none => substAll v cs
  | some x => x.1 ++ padStartZeros x.2.1 (toString v.number).data ++ x.2.2

/-! ## Lemmas about the string helpers -/

theorem isPrefixOf_rfl (l : List Char) : l.isPrefixOf l = true := by
  induction l with
  | nil => rfl
  | cons c cs ih => simp [List.isPrefixOf, ih]

theorem replaceGo_nil (pat repl : List Char) (f : Nat) : replaceGo pat repl f [] = [] := by
  cases f <;> rfl

theorem replaceGo_cons_neg (pat repl : List Char) (f : Nat) (c : Char) (cs : List Char)
    (hc : (pat.isPrefixOf (c :: cs) && !pat.isEmpty) = false) :
    replaceGo pat repl (f + 1) (c :: cs) = c :: replaceGo pat repl f cs := by
  simp [replaceGo, hc]

theorem replaceGo_cons_pos (pat repl : List Char) (f : Nat) (c : Char) (cs : List Char)
    (hc : (pat.isPrefixOf (c :: cs) && !pat.isEmpty) = true) :
    replaceGo pat repl (f + 1) (c :: cs) =
      repl ++ replaceGo pat repl f ((c :: cs).drop pat.length) := by
  simp [replaceGo, hc]

/-- A pattern that occurs nowhere is not replaced. -/
theorem replaceGo_of_not_contains (pat repl : List Char) :
    ∀ (f : Nat) (s : List Char), containsSub pat s = false → replaceGo pat repl f s = s := by
  intro f
  induction f with
  | zero => intro s _; rfl
  | succ f ih =>
    intro s h
    cases s with
    | nil => rfl
    | cons c cs =>
      have h' := h
      simp only [containsSub, Bool.or_eq_false_iff] at h'
      rw [replaceGo_cons_neg pat repl f c cs (by simp [h'.1]), ih cs h'.2]

theorem replaceL_of_not_contains (pat repl s : List Char) (h : containsSub pat s = false) :
    replaceL pat repl s = s :=
  replaceGo_of_not_contains pat repl s.length s h

/-- A pattern starting with a character that does not occur in the string
occurs nowhere in it. -/
theorem containsSub_eq_false_of_head (c : Char) (p s : List Char) (h : c ∉ s) :
    containsSub (c :: p) s = false := by
  induction s with
  | nil => rfl
  | cons d ds ih =>
    have hcd : c ≠ d := fun hc => h (hc ▸ List.mem_cons_self d ds)
    have hds : c ∉ ds := fun hm => h (List.mem_cons_of_mem d hm)
    simp only [containsSub, List.isPrefixOf, Bool.or_eq_false_iff]
    refine ⟨?_, ih hds⟩
    simp [beq_eq_false_iff_ne.mpr hcd]

/-- Replacing the whole pattern by the replacement. -/
theorem replaceL_self (pat repl : List Char) (h : pat ≠ []) :
    replaceL pat repl pat = repl := by
  cases pat with
  | cons c cs =>
    show replaceGo (c :: cs) repl (cs.length + 1) (c :: cs) = repl
    rw [replaceGo_cons_pos (c :: cs) repl cs.length c cs (by simp [isPrefixOf_rfl])]
    rw [show (c :: cs).drop (c :: cs).length = ([] : List Char) from List.drop_length _]
    rw [replaceGo_nil, List.append_nil]
  | nil => exact absurd rfl h

/-- Single-character global replacement is a character map. -/
theorem replaceGo_single (a b : Char) :
    ∀ (f : Nat) (s : List Char), s.length ≤ f →
      replaceGo [a] [b] f s = s.map (fun c => if c = a then b else c) := by
  intro f
  induction f with
  | zero =>
    intro s hs
    cases s with
    | nil => rfl
    | cons c cs => simp at hs
  | succ f ih =>
    intro s hs
    cases s with
    | nil => rfl
    | cons c cs =>
      simp only [List.length_cons, Nat.succ_le_succ_iff] at hs
      by_cases hca : c = a
      · subst hca
        rw [replaceGo_cons_pos [c] [b] f c cs (by simp [List.isPrefixOf])]
        simp only [List.length_cons, List.length_nil, List.drop_succ_cons, List.drop_zero,
          List.map_cons]
        rw [ih cs hs]
        simp
      · rw [replaceGo_cons_neg [a] [b] f c cs
          (by simp [List.isPrefixOf, beq_eq_false_iff_ne.mpr (fun h => hca h.symm)])]
        rw [ih cs hs]
        simp [hca]

theorem replaceL_single (a b : Char) (s : List Char) :
    replaceL [a] [b] s = s.map (fun c => if c = a then b else c) :=
  replaceGo_single a b s.length s (Nat.le_refl _)

theorem stringEta (s : String) : (⟨s.data⟩ : String) = s := by cases s; rfl

theorem replaceStr_self (pat repl : String) (h : pat.data ≠ []) :
    replaceStr pat repl pat = repl := by
  unfold replaceStr
  rw [replaceL_self pat.data repl.data h, stringEta]

/-- Replacing a brace-headed pattern in a brace-free string does nothing. -/
theorem replaceStr_no_open (pat repl s : String) (rest : List Char)
    (hp : pat.data = '\x7b' :: rest) (h : '\x7b' ∉ s.data) :
    replaceStr pat repl s = s := by
  unfold replaceStr
  rw [hp, replaceL_of_not_contains _ _ _ (containsSub_eq_false_of_head _ _ _ h), stringEta]

/-- The semicolon-to-comma conversion never introduces an opening brace. -/
theorem no_open_of_semi (s : String) (h : '\x7b' ∉ s.data) :
    '\x7b' ∉ (replaceStr ";" "," s).data := by
  show '\x7b' ∉ replaceL ";".data ",".data s.data
  rw [show (";".data : List Char) = [';'] from rfl, show (",".data : List Char) = [','] from rfl,
    replaceL_single]
  intro hm
  rcases List.mem_map.mp hm with ⟨d, hd, he⟩
  by_cases hds : d = ';'
  · rw [if_pos hds] at he
    exact absurd he.symm (by decide)
  · rw [if_neg hds] at he
    exact h (he ▸ hd)

theorem replaceStr_of_not_contains (pat repl s : String)
    (h : containsSub pat.data s.data = false) : replaceStr pat repl s = s := by
  unfold replaceStr
  rw [replaceL_of_not_contains _ _ _ h, stringEta]

/-- The padding-directive scanner finds nothing in a brace-free string. -/
theorem padScan_none (s : List Char) (h : '\x7b' ∉ s) : padScan s = none := by
  induction s with
  | nil => rfl
  | cons c cs ih =>
    have hc : c ≠ '\x7b' := fun hc => h (hc ▸ List.mem_cons_self c cs)
    have hcs : '\x7b' ∉ cs := fun hm => h (List.mem_cons_of_mem c hm)
    have hpfx : ("\x7bnumber:".data.isPrefixOf (c :: cs)) = false := by
      rw [show ("\x7bnumber:".data : List Char) = '\x7b' :: "number:".data from rfl]
      simp [List.isPrefixOf, beq_eq_false_iff_ne.mpr (fun hcc => hc hcc.symm)]
    have hph : padHere (c :: cs) = none := by
      simp [padHere, hpfx]
    simp [padScan, hph, ih hcs]

theorem applyPad_no_open (s : String) (n : Nat) (h : '\x7b' ∉ s.data) :
    applyPad s n = s := by
  unfold applyPad
  rw [padScan_none s.data h]

/-! ## Lemmas for the template-renderer claim -/

theorem isPrefixOf_append_self (p t : List Char) : p.isPrefixOf (p ++ t) = true := by
  induction p with
  | nil => cases t <;> rfl
  | cons c cs ih => simp [List.isPrefixOf, ih]

theorem takeWhile_all_append (p : Char → Bool) (s a : List Char)
    (hs : ∀ c ∈ s, p c = true)
    (ha : a = [] ∨ ∃ c cs, a = c :: cs ∧ p c = false) :
    (s ++ a).takeWhile p = s ∧ (s ++ a).dropWhile p = a := by
  induction s with
  | nil =>
    rcases ha with h | ⟨c, cs, hac, hpc⟩
    · subst h; exact ⟨rfl, rfl⟩
    · subst hac
      rw [List.nil_append]
      exact ⟨List.takeWhile_cons_of_neg (by simpa using hpc),
        List.dropWhile_cons_of_neg (by simpa using hpc)⟩
  | cons x t ih =>
    have hx : p x = true := hs x (List.mem_cons_self x t)
    have iht := ih (fun c hc => hs c (List.mem_cons_of_mem x hc))
    rw [List.cons_append]
    exact ⟨by rw [List.takeWhile_cons_of_pos hx, iht.1],
      by rw [List.dropWhile_cons_of_pos hx, iht.2]⟩

/-- The replacement worker does not depend on the fuel once it covers the
subject's length. -/
theorem replaceGo_fuel (pat repl : List Char) :
    ∀ (f g : Nat) (s : List Char), s.length ≤ f → s.length ≤ g →
      replaceGo pat repl f s = replaceGo pat repl g s := by
  intro f
  induction f with
  | zero =>
    intro g s hf _
    have hs : s = [] := List.length_eq_zero.mp (Nat.le_zero.mp hf)
    subst hs
    rw [replaceGo_nil, replaceGo_nil]
  | succ f ih =>
    intro g s hf hg
    cases s with
    | nil => rw [replaceGo_nil, replaceGo_nil]
    | cons c cs =>
      cases g with
      | zero => simp at hg
      | succ g =>
        have hf' : cs.length ≤ f := by simpa using hf
        have hg' : cs.length ≤ g := by simpa using hg
        cases hb : (pat.isPrefixOf (c :: cs) && !pat.isEmpty) with
        | true =>
          rw [replaceGo_cons_pos _ _ _ _ _ hb, replaceGo_cons_pos _ _ _ _ _ hb]
          have hpat : 1 ≤ pat.length := by
            cases pat with
            | nil => simp at hb
            | cons p ps => simp
          have hd : ((c :: cs).drop pat.length).length ≤ cs.length := by
            rw [List.length_drop]
            simp only [List.length_cons]
            omega
          rw [ih g _ (Nat.le_trans hd hf') (Nat.le_trans hd hg')]
        | false =>
          rw [replaceGo_cons_neg _ _ _ _ _ hb, replaceGo_cons_neg _ _ _ _ _ hb,
            ih g cs hf' hg']

theorem replaceGo_eq_replaceL (pat repl : List Char) (f : Nat) (s : List Char)
    (h : s.length ≤ f) : replaceGo pat repl f s = replaceL pat repl s :=
  replaceGo_fuel pat repl f s.length s h (Nat.le_refl _)

/-- A replacement whose pattern opens with `\x7b` copies a brace-free prefix of
the subject unchanged. -/
theorem replaceL_append_no_open (p repl : List Char) :
    ∀ (x : List Char), '\x7b' ∉ x → ∀ (y : List Char),
      replaceL ('\x7b' :: p) repl (x ++ y) = x ++ replaceL ('\x7b' :: p) repl y := by
  intro x
  induction x with
  | nil => intro _ y; rfl
  | cons c cx ih =>
    intro hx y
    have hc : c ≠ '\x7b' := fun h => hx (h ▸ List.mem_cons_self c cx)
    have hcx : '\x7b' ∉ cx := fun h => hx (List.mem_cons_of_mem c h)
    show replaceGo ('\x7b' :: p) repl ((cx ++ y).length + 1) (c :: (cx ++ y)) = _
    rw [replaceGo_cons_neg _ _ _ _ _ (by
      simp [List.isPrefixOf, beq_eq_false_iff_ne.mpr (fun hcc => hc hcc.symm)])]
    show c :: replaceL ('\x7b' :: p) repl (cx ++ y) = _
    rw [ih hcx y, List.cons_append]

/-- The pattern at the head of the subject is replaced and the scan resumes
after it. -/
theorem replaceL_append_self (pat repl y : List Char) (h : pat ≠ []) :
    replaceL pat repl (pat ++ y) = repl ++ replaceL pat repl y := by
  cases pat with
  | nil => exact absurd rfl h
  | cons p ps =>
    show replaceGo (p :: ps) repl ((ps ++ y).length + 1) (p :: (ps ++ y)) = _
    rw [replaceGo_cons_pos _ _ _ _ _ (by
      rw [show p :: (ps ++ y) = (p :: ps) ++ y from rfl]
      simp [isPrefixOf_append_self])]
    rw [show (p :: ps).length = ps.length + 1 from rfl, List.drop_succ_cons,
      List.drop_left]
    rw [replaceGo_eq_replaceL _ _ _ _ (by
      rw [List.length_append]
      exact Nat.le_add_left _ _)]

/-- A brace-headed pattern never matches at a non-brace character. -/
theorem brace_pat_head_false (p : List Char) (c : Char) (s : List Char)
    (hc : c ≠ '\x7b') : (('\x7b' :: p).isPrefixOf (c :: s)) = false := by
  simp [List.isPrefixOf, beq_eq_false_iff_ne.mpr (fun h => hc h.symm)]

/-- A prefix test fails against any extension of a string it already disagrees
with inside the overlap. -/
theorem isPrefixOf_append_false (p : List Char) :
    ∀ (x y : List Char), p.take x.length ≠ x.take p.length →
      p.isPrefixOf (x ++ y) = false := by
  induction p with
  | nil => intro x y h; exact absurd (by simp) h
  | cons a p ih =>
    intro x y h
    cases x with
    | nil => exact absurd (by simp) h
    | cons b x =>
      show ((a == b) && p.isPrefixOf (x ++ y)) = false
      by_cases hab : a = b
      · subst hab
        have h' : p.take x.length ≠ x.take p.length := by
          intro hc
          exact h (by simp [hc])
        rw [ih x y h']
        exact Bool.and_false _
      · rw [beq_eq_false_iff_ne.mpr hab]
        exact Bool.false_and _

/-- The placeholder name-plus-closing-brace text carries no opening brace. -/
theorem keyName_no_open (k : VarKey) : '\x7b' ∉ keyName k ++ ['\x7d'] := by
  cases k <;> decide

theorem patOf_ne_nil (k : VarKey) : patOf k ≠ [] :=
  fun h => List.noConfusion h

/-- Distinct placeholder patterns disagree within their overlap. -/
theorem patOf_take_ne (k k' : VarKey) (hne : k ≠ k') :
    (patOf k).take (patOf k').length ≠ (patOf k').take (patOf k).length := by
  cases k <;> cases k' <;> first | exact absurd rfl hne | decide

/-- Every placeholder pattern disagrees with the padding-directive opener
within their overlap. -/
theorem patOf_pad_take_ne (k : VarKey) :
    (patOf k).take ("\x7bnumber:".data).length ≠
      ("\x7bnumber:".data).take (patOf k).length := by
  cases k <;> decide

theorem patOf_head_false (k : VarKey) (c : Char) (s : List Char)
    (hc : c ≠ '\x7b') : ((patOf k).isPrefixOf (c :: s)) = false := by
  rw [show patOf k = '\x7b' :: (keyName k ++ ['\x7d']) from rfl]
  exact brace_pat_head_false _ _ _ hc

theorem replaceL_patOf_append_no_open (k : VarKey) (repl x y : List Char)
    (hx : '\x7b' ∉ x) :
    replaceL (patOf k) repl (x ++ y) = x ++ replaceL (patOf k) repl y := by
  rw [show patOf k = '\x7b' :: (keyName k ++ ['\x7d']) from rfl]
  exact replaceL_append_no_open _ _ x hx y

theorem replaceL_patOf_cons_skip (k : VarKey) (repl : List Char) (c : Char)
    (y : List Char) (hc : c ≠ '\x7b') :
    replaceL (patOf k) repl (c :: y) = c :: replaceL (patOf k) repl y := by
  show replaceGo (patOf k) repl (y.length + 1) (c :: y) = _
  rw [replaceGo_cons_neg _ _ _ _ _ (by simp [patOf_head_false k c y hc])]
  rfl

/-- A pass that cannot match at the head of the subject and whose head chunk
carries no further opening brace copies the chunk unchanged. -/
theorem replaceL_chunk_skip (p repl : List Char) (c : Char) (x y : List Char)
    (hhead : (('\x7b' :: p).isPrefixOf (c :: (x ++ y))) = false)
    (hx : '\x7b' ∉ x) :
    replaceL ('\x7b' :: p) repl ((c :: x) ++ y) =
      (c :: x) ++ replaceL ('\x7b' :: p) repl y := by
  show replaceGo ('\x7b' :: p) repl ((x ++ y).length + 1) (c :: (x ++ y)) = _
  rw [replaceGo_cons_neg _ _ _ _ _ (by simp [hhead])]
  show c :: replaceL ('\x7b' :: p) repl (x ++ y) = _
  rw [replaceL_append_no_open p repl x hx y, List.cons_append]

theorem replaceL_patOf_chunk_skip (k : VarKey) (repl : List Char) (c : Char)
    (x y : List Char)
    (hhead : ((patOf k).isPrefixOf (c :: (x ++ y))) = false)
    (hx : '\x7b' ∉ x) :
    replaceL (patOf k) repl ((c :: x) ++ y) =
      (c :: x) ++ replaceL (patOf k) repl y := by
  rw [show patOf k = '\x7b' :: (keyName k ++ ['\x7d']) from rfl] at hhead ⊢
  exact replaceL_chunk_skip _ _ _ _ _ hhead hx

/-- Every character that `Nat.digitChar` produces below base 10 is a digit. -/
theorem digitChar_isDigit (m : Nat) (h : m < 10) :
    (Nat.digitChar m).isDigit = true := by
  interval_cases m <;> decide

theorem toDigitsCore_digits :
    ∀ (f n : Nat) (ds : List Char), (∀ c ∈ ds, c.isDigit = true) →
      ∀ c ∈ Nat.toDigitsCore 10 f n ds, c.isDigit = true := by
  intro f
  induction f with
  | zero => intro n ds h; exact h
  | succ f ih =>
    intro n ds h
    show ∀ c ∈ (if n / 10 = 0 then Nat.digitChar (n % 10) :: ds
        else Nat.toDigitsCore 10 f (n / 10) (Nat.digitChar (n % 10) :: ds)),
      c.isDigit = true
    have hd : ∀ c ∈ Nat.digitChar (n % 10) :: ds, c.isDigit = true := by
      intro c hc
      rcases List.mem_cons.mp hc with h1 | h2
      · subst h1
        exact digitChar_isDigit _ (Nat.mod_lt _ (by decide))
      · exact h c h2
    by_cases hz : n / 10 = 0
    · rw [if_pos hz]
      exact hd
    · rw [if_neg hz]
      exact ih (n / 10) _ hd

/-- A stringified natural number consists of digit characters only. -/
theorem repr_digits (n : Nat) : ∀ c ∈ (Nat.repr n).data, c.isDigit = true := by
  show ∀ c ∈ Nat.toDigitsCore 10 (n + 1) n [], c.isDigit = true
  exact toDigitsCore_digits (n + 1) n [] (by intro c hc; cases hc)

theorem no_open_of_toString (n : Nat) : '\x7b' ∉ (toString n).data := by
  intro hm
  exact absurd (repr_digits n '\x7b' hm) (by decide)

/-- All six substituted values are brace-free once the string-valued fields
are: numbers stringify to digits and the genre conversion only turns `;` into
`,`. -/
theorem valOf_no_open (v : Vars) (hart : '\x7b' ∉ v.artist.data)
    (htit : '\x7b' ∉ v.title.data) (halb : '\x7b' ∉ v.album.data)
    (hgen : '\x7b' ∉ v.genre.data) : ∀ k, '\x7b' ∉ valOf v k := by
  intro k
  cases k with
  | number => exact no_open_of_toString v.number
  | artist => exact hart
  | title => exact htit
  | album => exact halb
  | genre =>
    show '\x7b' ∉ (genreValue v.genre).data
    unfold genreValue
    by_cases hg : v.genre = ""
    · rw [if_pos hg]
      exact hgen
    · rw [if_neg hg]
      exact no_open_of_semi v.genre hgen
  | year => exact no_open_of_toString v.year

/-- One iteration of the forEach loop: the global replacement for a key not
yet handled turns the partially substituted text into the one where that key
is also handled — every occurrence of its placeholder is replaced, and
nothing else changes. -/
theorem pass_substPartial (v : Vars) (k : VarKey) (done : VarKey → Bool)
    (hvals : ∀ k', '\x7b' ∉ valOf v k') (hk : done k = false) :
    ∀ cs : List TChunk, (∀ ch ∈ cs, chunkWF ch = true) →
      replaceL (patOf k) (valOf v k) (substPartial v done cs) =
        substPartial v (fun k' => done k' || (k' == k)) cs := by
  intro cs
  induction cs with
  | nil => intro _; rfl
  | cons ch rest ih =>
    intro hwf
    have hwfr : ∀ c ∈ rest, chunkWF c = true :=
      fun c hc => hwf c (List.mem_cons_of_mem _ hc)
    have ihr := ih hwfr
    cases ch with
    | lit c =>
      have hc : c ≠ '\x7b' := by
        have h9 := hwf (TChunk.lit c) (List.mem_cons_self _ _)
        simpa [chunkWF] using h9
      show replaceL (patOf k) (valOf v k) (c :: substPartial v done rest) =
        c :: substPartial v (fun k' => done k' || (k' == k)) rest
      rw [replaceL_patOf_cons_skip k _ c _ hc, ihr]
    | ph k2 =>
      by_cases hkk : k2 = k
      · subst hkk
        show replaceL (patOf k2) (valOf v k2)
            ((if done k2 then valOf v k2 else patOf k2) ++ substPartial v done rest) =
          (if done k2 || (k2 == k2) then valOf v k2 else patOf k2) ++
            substPartial v (fun k' => done k' || (k' == k2)) rest
        rw [hk, beq_self_eq_true]
        show replaceL (patOf k2) (valOf v k2) (patOf k2 ++ substPartial v done rest) =
          valOf v k2 ++ substPartial v (fun k' => done k' || (k' == k2)) rest
        rw [replaceL_append_self _ _ _ (patOf_ne_nil k2), ihr]
      · show replaceL (patOf k) (valOf v k)
            ((if done k2 then valOf v k2 else patOf k2) ++ substPartial v done rest) =
          (if done k2 || (k2 == k) then valOf v k2 else patOf k2) ++
            substPartial v (fun k' => done k' || (k' == k)) rest
        rw [beq_eq_false_iff_ne.mpr hkk]
        cases hdk : done k2 with
        | true =>
          show replaceL (patOf k) (valOf v k)
              (valOf v k2 ++ substPartial v done rest) =
            valOf v k2 ++ substPartial v (fun k' => done k' || (k' == k)) rest
          rw [replaceL_patOf_append_no_open k _ _ _ (hvals k2), ihr]
        | false =>
          have hh : (patOf k).isPrefixOf
              ('\x7b' :: ((keyName k2 ++ ['\x7d']) ++ substPartial v done rest)) = false := by
            have h9 := isPrefixOf_append_false (patOf k) (patOf k2)
              (substPartial v done rest) (patOf_take_ne k k2 (fun h => hkk h.symm))
            simpa [patOf] using h9
          show replaceL (patOf k) (valOf v k)
              (('\x7b' :: (keyName k2 ++ ['\x7d'])) ++ substPartial v done rest) =
            patOf k2 ++ substPartial v (fun k' => done k' || (k' == k)) rest
          rw [replaceL_patOf_chunk_skip k _ '\x7b' (keyName k2 ++ ['\x7d']) _ hh
            (keyName_no_open k2), ihr]
          rfl
    | pad ds =>
      have hds := hwf (TChunk.pad ds) (List.mem_cons_self _ _)
      have hall : ds.all Char.isDigit = true := by
        cases hx : ds.all Char.isDigit
        · rw [show chunkWF (TChunk.pad ds) = (!ds.isEmpty && ds.all Char.isDigit) from rfl,
            hx] at hds
          simp at hds
        · rfl
      have hdsd : ∀ c ∈ ds, c.isDigit = true :=
        fun c hc => List.all_eq_true.mp hall c hc
      have hxbrace : '\x7b' ∉ ("number:".data ++ ds ++ "d\x7d".data) := by
        intro hm
        rcases List.mem_append.mp hm with hm2 | hm3
        · rcases List.mem_append.mp hm2 with hm4 | hm5
          · exact absurd hm4 (by decide)
          · exact absurd (hdsd _ hm5) (by decide)
        · exact absurd hm3 (by decide)
      have hh : (patOf k).isPrefixOf
          ('\x7b' :: (("number:".data ++ ds ++ "d\x7d".data) ++
            substPartial v done rest)) = false := by
        have h9 := isPrefixOf_append_false (patOf k) ("\x7bnumber:".data)
          ((ds ++ "d\x7d".data) ++ substPartial v done rest) (patOf_pad_take_ne k)
        simpa [show ("\x7bnumber:".data : List Char) = '\x7b' :: "number:".data from rfl,
          List.append_assoc] using h9
      show replaceL (patOf k) (valOf v k)
          (('\x7b' :: ("number:".data ++ ds ++ "d\x7d".data)) ++ substPartial v done rest) =
        ("\x7bnumber:".data ++ ds ++ "d\x7d".data) ++
          substPartial v (fun k' => done k' || (k' == k)) rest
      rw [replaceL_patOf_chunk_skip k _ '\x7b' ("number:".data ++ ds ++ "d\x7d".data) _ hh
        hxbrace, ihr]
      rfl

theorem doneAfter_zero (k : VarKey) : doneAfter 0 k = false := by
  cases k <;> rfl

/-- Before any forEach iteration, the partial substitution is the template
text itself. -/
theorem substPartial_start (v : Vars) :
    ∀ cs : List TChunk, substPartial v (doneAfter 0) cs = tmplText cs := by
  intro cs
  induction cs with
  | nil => rfl
  | cons ch rest ih =>
    cases ch with
    | lit c => simp [substPartial, tmplText, chunkText, ih]
    | ph k2 => simp [substPartial, tmplText, chunkText, doneAfter_zero, ih]
    | pad ds => simp [substPartial, tmplText, chunkText, ih]

/-- The six sequential passes of `processTemplate` on a well-formed template
amount to the simultaneous substitution of all six placeholders. -/
theorem substVars_chunks (v : Vars) (cs : List TChunk)
    (hwf : ∀ ch ∈ cs, chunkWF ch = true) (hvals : ∀ k, '\x7b' ∉ valOf v k) :
    (substVars ⟨tmplText cs⟩ v).data = substAll v cs := by
  have e1 : (fun k' => doneAfter 0 k' || (k' == VarKey.number)) = doneAfter 1 := by
    funext k'
    cases k' <;> decide
  have e2 : (fun k' => doneAfter 1 k' || (k' == VarKey.artist)) = doneAfter 2 := by
    funext k'
    cases k' <;> decide
  have e3 : (fun k' => doneAfter 2 k' || (k' == VarKey.title)) = doneAfter 3 := by
    funext k'
    cases k' <;> decide
  have e4 : (fun k' => doneAfter 3 k' || (k' == VarKey.album)) = doneAfter 4 := by
    funext k'
    cases k' <;> decide
  have e5 : (fun k' => doneAfter 4 k' || (k' == VarKey.genre)) = doneAfter 5 := by
    funext k'
    cases k' <;> decide
  have e6 : (fun k' => doneAfter 5 k' || (k' == VarKey.year)) = doneAfter 6 := by
    funext k'
    cases k' <;> decide
  have e7 : doneAfter 6 = (fun _ => true) := by
    funext k'
    cases k' <;> decide
  have h1 := pass_substPartial v VarKey.number (doneAfter 0) hvals (by decide) cs hwf
  rw [e1] at h1
  have h2 := pass_substPartial v VarKey.artist (doneAfter 1) hvals (by decide) cs hwf
  rw [e2] at h2
  have h3 := pass_substPartial v VarKey.title (doneAfter 2) hvals (by decide) cs hwf
  rw [e3] at h3
  have h4 := pass_substPartial v VarKey.album (doneAfter 3) hvals (by decide) cs hwf
  rw [e4] at h4
  have h5 := pass_substPartial v VarKey.genre (doneAfter 4) hvals (by decide) cs hwf
  rw [e5] at h5
  have h6 := pass_substPartial v VarKey.year (doneAfter 5) hvals (by decide) cs hwf
  rw [e6] at h6
  show replaceL "\x7byear\x7d".data (toString v.year).data
      (replaceL "\x7bgenre\x7d".data (genreValue v.genre).data
        (replaceL "\x7balbum\x7d".data v.album.data
          (replaceL "\x7btitle\x7d".data v.title.data
            (replaceL "\x7bartist\x7d".data v.artist.data
              (replaceL "\x7bnumber\x7d".data (toString v.number).data
                (tmplText cs)))))) = substAll v cs
  rw [show ("\x7bnumber\x7d".data : List Char) = patOf VarKey.number from rfl,
    show ("\x7bartist\x7d".data : List Char) = patOf VarKey.artist from rfl,
    show ("\x7btitle\x7d".data : List Char) = patOf VarKey.title from rfl,
    show ("\x7balbum\x7d".data : List Char) = patOf VarKey.album from rfl,
    show ("\x7bgenre\x7d".data : List Char) = patOf VarKey.genre from rfl,
    show ("\x7byear\x7d".data : List Char) = patOf VarKey.year from rfl,
    show (toString v.number).data = valOf v VarKey.number from rfl,
    show v.artist.data = valOf v VarKey.artist from rfl,
    show v.title.data = valOf v VarKey.title from rfl,
    show v.album.data = valOf v VarKey.album from rfl,
    show (genreValue v.genre).data = valOf v VarKey.genre from rfl,
    show (toString v.year).data = valOf v VarKey.year from rfl,
    ← substPartial_start v cs]
  rw [h1, h2, h3, h4, h5, h6, e7]
  rfl

theorem padHere_none (c : Char) (cs : List Char) (hc : c ≠ '\x7b') :
    padHere (c :: cs) = none := by
  have hpfx : ("\x7bnumber:".data.isPrefixOf (c :: cs)) = false := by
    rw [show ("\x7bnumber:".data : List Char) = '\x7b' :: "number:".data from rfl]
    simp [List.isPrefixOf, beq_eq_false_iff_ne.mpr (fun hcc => hc hcc.symm)]
  simp [padHere, hpfx]

/-- The padding scanner skips a brace-free prefix. -/
theorem padScan_append_no_open :
    ∀ (x : List Char), '\x7b' ∉ x → ∀ (y : List Char),
      padScan (x ++ y) = (padScan y).map (fun t => (x ++ t.1, t.2.1, t.2.2)) := by
  intro x
  induction x with
  | nil =>
    intro _ y
    cases hy : padScan y with
    | none => simp [hy]
    | some t =>
      rcases t with ⟨a, b, c⟩
      simp [hy]
  | cons c cx ih =>
    intro hx y
    have hc : c ≠ '\x7b' := fun h => hx (h ▸ List.mem_cons_self c cx)
    have hcx : '\x7b' ∉ cx := fun h => hx (List.mem_cons_of_mem c h)
    show padScan (c :: (cx ++ y)) = _
    simp only [padScan]
    rw [padHere_none c _ hc]
    show (padScan (cx ++ y)).map (fun t => (c :: t.1, t.2.1, t.2.2)) = _
    rw [ih hcx y]
    cases hy : padScan y with
    | none => rfl
    | some t =>
      rcases t with ⟨a, b, c2⟩
      simp

/-- On the fully substituted text of a well-formed template, the padding
scanner finds exactly the first padding directive. -/
theorem padScan_substAll (v : Vars) (hvals : ∀ k, '\x7b' ∉ valOf v k) :
    ∀ cs : List TChunk, (∀ ch ∈ cs, chunkWF ch = true) →
      padScan (substAll v cs) = padSplitChunks v cs := by
  intro cs
  induction cs with
  | nil => intro _; rfl
  | cons ch rest ih =>
    intro hwf
    have hwfr : ∀ c ∈ rest, chunkWF c = true :=
      fun c hc => hwf c (List.mem_cons_of_mem _ hc)
    have ihr := ih hwfr
    cases ch with
    | lit c =>
      have hc : c ≠ '\x7b' := by
        have h9 := hwf (TChunk.lit c) (List.mem_cons_self _ _)
        simpa [chunkWF] using h9
      show padScan (c :: substAll v rest) =
        (padSplitChunks v rest).map (fun x => (c :: x.1, x.2.1, x.2.2))
      simp only [padScan]
      rw [padHere_none c _ hc]
      show (padScan (substAll v rest)).map (fun t => (c :: t.1, t.2.1, t.2.2)) = _
      rw [ihr]
    | ph k2 =>
      show padScan (valOf v k2 ++ substAll v rest) =
        (padSplitChunks v rest).map (fun x => (valOf v k2 ++ x.1, x.2.1, x.2.2))
      rw [padScan_append_no_open (valOf v k2) (hvals k2) (substAll v rest), ihr]
    | pad ds =>
      have hds := hwf (TChunk.pad ds) (List.mem_cons_self _ _)
      have hie : ds.isEmpty = false := by
        cases hx : ds.isEmpty
        · rfl
        · rw [show chunkWF (TChunk.pad ds) = (!ds.isEmpty && ds.all Char.isDigit) from rfl,
            hx] at hds
          simp at hds
      have hall : ds.all Char.isDigit = true := by
        cases hx : ds.all Char.isDigit
        · rw [show chunkWF (TChunk.pad ds) = (!ds.isEmpty && ds.all Char.isDigit) from rfl,
            hx] at hds
          simp at hds
        · rfl
      have hdsd : ∀ c ∈ ds, c.isDigit = true :=
        fun c hc => List.all_eq_true.mp hall c hc
      have hsubj : ('\x7b' :: (("number:".data ++ ds ++ "d\x7d".data) ++ substAll v rest)) =
          "\x7bnumber:".data ++ (ds ++ ('d' :: '\x7d' :: substAll v rest)) := by
        rw [show ("\x7bnumber:".data : List Char) = '\x7b' :: "number:".data from rfl,
          show ("d\x7d".data : List Char) = ['d', '\x7d'] from rfl]
        simp [List.append_assoc]
      have hpfx : ("\x7bnumber:".data.isPrefixOf
          ("\x7bnumber:".data ++ (ds ++ ('d' :: '\x7d' :: substAll v rest)))) = true :=
        isPrefixOf_append_self _ _
      have hdrop : ("\x7bnumber:".data ++ (ds ++ ('d' :: '\x7d' :: substAll v rest))).drop
          ("\x7bnumber:".data).length = ds ++ ('d' :: '\x7d' :: substAll v rest) :=
        List.drop_left _ _
      have htk := takeWhile_all_append Char.isDigit ds ('d' :: '\x7d' :: substAll v rest)
        hdsd (Or.inr ⟨'d', '\x7d' :: substAll v rest, rfl, by decide⟩)
      have hdrop2 : (ds ++ ('d' :: '\x7d' :: substAll v rest)).drop ds.length =
          'd' :: '\x7d' :: substAll v rest := List.drop_left _ _
      have hg2 : ("d\x7d".data.isPrefixOf
          ((ds ++ ('d' :: '\x7d' :: substAll v rest)).drop ds.length)) = true := by
        rw [hdrop2]
        exact isPrefixOf_append_self "d\x7d".data (substAll v rest)
      have hdrop3 : (ds ++ ('d' :: '\x7d' :: substAll v rest)).drop (ds.length + 2) =
          substAll v rest := by
        rw [show ds ++ ('d' :: '\x7d' :: substAll v rest) =
          (ds ++ ['d', '\x7d']) ++ substAll v rest from by simp,
          show ds.length + 2 = (ds ++ ['d', '\x7d']).length from by simp]
        exact List.drop_left _ _
      have hcan : padHere ("\x7bnumber:".data ++ (ds ++ ('d' :: '\x7d' :: substAll v rest))) =
          some (parseDigits ds, substAll v rest) := by
        simp only [padHere, hpfx, if_true, hdrop, htk.1, hie, hg2, hdrop3]
        simp
      show padScan ('\x7b' :: (("number:".data ++ ds ++ "d\x7d".data) ++ substAll v rest)) =
        some ([], parseDigits ds, substAll v rest)
      simp only [padScan]
      rw [show padHere ('\x7b' :: (("number:".data ++ ds ++ "d\x7d".data) ++ substAll v rest)) =
        some (parseDigits ds, substAll v rest) from hsubj ▸ hcan]

theorem tmplText_ne_nil (cs : List TChunk) (h : cs ≠ []) : tmplText cs ≠ [] := by
  cases cs with
  | nil => exact absurd rfl h
  | cons ch rest =>
    cases ch with
    | lit c => simp [tmplText, chunkText]
    | ph k => simp [tmplText, chunkText, patOf]
    | pad ds =>
      simp [tmplText, chunkText,
        show ("\x7bnumber:".data : List Char) = '\x7b' :: "number:".data from rfl]

/-- C7: for every well-formed template — an arbitrary sequence of literal
characters, placeholder occurrences of the six variables in any order and
multiplicity, and padding directives — and every variable bag whose string
fields contain no `\x7b` (a brace inside a substituted value would be re-scanned
by the later sequential passes) and no `$` (JS replacement-pattern escapes
are not modelled), the renderer substitutes each variable's value for every
occurrence of its placeholder, the genre value with every `;` turned into
`,`, and replaces the first padding directive by the zero-padded number: the
output equals the one-pass spec rendering `renderSpec`.  The second conjunct
states the genre conversion explicitly as a character map over the genre
value. -/
theorem claim7_template_render (v : Vars) (cs : List TChunk)
    (hwf : ∀ ch ∈ cs, chunkWF ch = true)
    (hart : '\x7b' ∉ v.artist.data) (htit : '\x7b' ∉ v.title.data)
    (halb : '\x7b' ∉ v.album.data) (hgen : '\x7b' ∉ v.genre.data)
    (_hdol : '$' ∉ v.artist.data ∧ '$' ∉ v.title.data ∧ '$' ∉ v.album.data ∧
      '$' ∉ v.genre.data) :
    (processTemplate ⟨tmplText cs⟩ v).data = renderSpec v cs ∧
      (genreValue v.genre).data =
        v.genre.data.map (fun c => if c = ';' then ',' else c) := by
  have hvals : ∀ k, '\x7b' ∉ valOf v k := valOf_no_open v hart htit halb hgen
  constructor
  · by_cases hemp : cs = []
    · subst hemp
      rfl
    · have hsne : (⟨tmplText cs⟩ : String) ≠ "" := by
        intro h
        exact tmplText_ne_nil cs hemp (congrArg String.data h)
      show (if (⟨tmplText cs⟩ : String) = "" then ""
        else applyPad (substVars ⟨tmplText cs⟩ v) v.number).data = renderSpec v cs
      rw [if_neg hsne]
      unfold applyPad
      rw [substVars_chunks v cs hwf hvals, padScan_substAll v hvals cs hwf]
      unfold renderSpec
      cases hps : padSplitChunks v cs with
      | none =>
        show (substVars ⟨tmplText cs⟩ v).data = substAll v cs
        exact substVars_chunks v cs hwf hvals
      | some x =>
        rcases x with ⟨b, w, a⟩
        rfl
  · unfold genreValue
    by_cases hg : v.genre = ""
    · rw [if_pos hg, hg]
      rfl
    · rw [if_neg hg]
      show replaceL ";".data ",".data v.genre.data = _
      rw [show (";".data : List Char) = [';'] from rfl,
        show (",".data : List Char) = [','] from rfl, replaceL_single]

/-- Amended C8: the renderer is a total function, an empty template renders to
the empty string for every variable bag, and a placeholder that names no bag
variable is left verbatim in the output rather than rendering empty. -/
theorem claim8_amended (v : Vars) :
    processTemplate "" v = "" ∧ processTemplate "\x7bfoo\x7d" v = "\x7bfoo\x7d" := by
  refine ⟨rfl, ?_⟩
  unfold processTemplate substVars
  rw [if_neg (by decide : ¬("\x7bfoo\x7d" = ""))]
  rw [replaceStr_of_not_contains "\x7bnumber\x7d" _ _ (by decide),
    replaceStr_of_not_contains "\x7bartist\x7d" _ _ (by decide),
    replaceStr_of_not_contains "\x7btitle\x7d" _ _ (by decide),
    replaceStr_of_not_contains "\x7balbum\x7d" _ _ (by decide),
    replaceStr_of_not_contains "\x7bgenre\x7d" _ _ (by decide),
    replaceStr_of_not_contains "\x7byear\x7d" _ _ (by decide)]
  unfold applyPad
  rw [show padScan "\x7bfoo\x7d".data = none from rfl]

/-- C7 witness: the spec's test vector — a genre of `a; b; c` renders as
`a, b, c` — obtained from the general theorem at the one-placeholder template
`\x7bgenre\x7d`. -/
theorem claim7_witness :
    processTemplate "\x7bgenre\x7d" (Vars.mk 1 "A" "T" "L" "a; b; c" 2024) = "a, b, c" := by
  have h := (claim7_template_render (Vars.mk 1 "A" "T" "L" "a; b; c" 2024)
    [TChunk.ph VarKey.genre] (by decide) (by decide) (by decide) (by decide) (by decide)
    ⟨by decide, by decide, by decide, by decide⟩).1
  have h2 : processTemplate "\x7bgenre\x7d" (Vars.mk 1 "A" "T" "L" "a; b; c" 2024) =
      processTemplate ⟨tmplText [TChunk.ph VarKey.genre]⟩
        (Vars.mk 1 "A" "T" "L" "a; b; c" 2024) := rfl
  rw [h2, ← stringEta (processTemplate ⟨tmplText [TChunk.ph VarKey.genre]⟩
    (Vars.mk 1 "A" "T" "L" "a; b; c" 2024)), h]
  rfl

/-- C8 amended-claim witness at a concrete variable bag. -/
theorem claim8_witness :
    processTemplate "" (Vars.mk 1 "A" "T" "L" "G" 2024) = "" ∧
      processTemplate "\x7bfoo\x7d" (Vars.mk 1 "A" "T" "L" "G" 2024) = "\x7bfoo\x7d" :=
  claim8_amended (Vars.mk 1 "A" "T" "L" "G" 2024)

/-- C8 counterexample: a missing variable's placeholder renders as itself, not
as the empty string, refuting the claim that missing variables render empty. -/
theorem claim8_counterexample :
    processTemplate "\x7bfoo\x7d" (Vars.mk 1 "A" "T" "L" "G" 2024) = "\x7bfoo\x7d" ∧
      "\x7bfoo\x7d" ≠ "" :=
  ⟨rfl, by decide⟩

/-! ## Collect-phase lemmas: claims C2 and amended C1 -/

theorem collectFiles_inv (k : Rule → Vars → String) (r : Rule) (valid : List String)
    (cy : Nat) :
    ∀ (fs : List Track) (processed ruleProc : List String) (acc : List MEntry),
      (∀ e ∈ acc, e.file.filePath ∈ processed) →
      acc.Pairwise (fun a b => a.file.filePath ≠ b.file.filePath) →
      (∀ e ∈ (collectFiles k r valid cy fs processed ruleProc acc).2,
          e.file.filePath ∈ (collectFiles k r valid cy fs processed ruleProc acc).1) ∧
        (collectFiles k r valid cy fs processed ruleProc acc).2.Pairwise
          (fun a b => a.file.filePath ≠ b.file.filePath) := by
  intro fs
  induction fs with
  | nil => intro processed ruleProc acc hmem hpw; exact ⟨hmem, hpw⟩
  | cons f fs ih =>
    intro processed ruleProc acc hmem hpw
    by_cases h1 : f.filePath ∈ processed
    · simp only [collectFiles, if_pos h1]
      exact ih processed ruleProc acc hmem hpw
    · by_cases h2 : f.filePath ∈ ruleProc
      · simp only [collectFiles, if_neg h1, if_pos h2]
        exact ih processed ruleProc acc hmem hpw
      · by_cases h3 : anyMatch valid f.lyrics
        · simp only [collectFiles, if_neg h1, if_neg h2, if_pos h3]
          apply ih
          · intro e he
            rcases List.mem_append.mp he with hl | hr
            · exact List.mem_append_left _ (hmem e hl)
            · rw [List.mem_singleton.mp hr]
              exact List.mem_append_right _ (List.mem_singleton.mpr rfl)
          · rw [List.pairwise_append]
            refine ⟨hpw, List.pairwise_singleton _ _, ?_⟩
            intro a ha b hb
            rw [List.mem_singleton.mp hb]
            intro hcontra
            exact h1 (hcontra ▸ hmem a ha)
        · simp only [collectFiles, if_neg h1, if_neg h2, if_neg h3]
          exact ih processed ruleProc acc hmem hpw

theorem collectRules_inv (k : Rule → Vars → String) (cy : Nat) (files : List Track) :
    ∀ (rs : List Rule) (processed : List String) (acc : List MEntry),
      (∀ e ∈ acc, e.file.filePath ∈ processed) →
      acc.Pairwise (fun a b => a.file.filePath ≠ b.file.filePath) →
      (collectRules k cy files rs processed acc).Pairwise
        (fun a b => a.file.filePath ≠ b.file.filePath) := by
  intro rs
  induction rs with
  | nil => intro processed acc _ hpw; exact hpw
  | cons r rs ih =>
    intro processed acc hmem hpw
    by_cases hv : validSearchesOf r = []
    · simp only [collectRules, if_pos hv]
      exact ih processed acc hmem hpw
    · simp only [collectRules, if_neg hv]
      have h := collectFiles_inv k r (validSearchesOf r) cy files processed [] acc hmem hpw
      exact ih _ _ h.1 h.2

theorem collectFiles_paths (r : Rule) (valid : List String) (cy : Nat) :
    ∀ (fs : List Track) (processed ruleProc : List String) (accP accA : List MEntry),
      accP.map (fun e => e.file.filePath) = accA.map (fun e => e.file.filePath) →
      (collectFiles previewKey r valid cy fs processed ruleProc accP).1 =
          (collectFiles applyKey r valid cy fs processed ruleProc accA).1 ∧
        (collectFiles previewKey r valid cy fs processed ruleProc accP).2.map
            (fun e => e.file.filePath) =
          (collectFiles applyKey r valid cy fs processed ruleProc accA).2.map
            (fun e => e.file.filePath) := by
  intro fs
  induction fs with
  | nil => intro processed ruleProc accP accA hmap; exact ⟨rfl, hmap⟩
  | cons f fs ih =>
    intro processed ruleProc accP accA hmap
    by_cases h1 : f.filePath ∈ processed
    · simp only [collectFiles, if_pos h1]
      exact ih processed ruleProc accP accA hmap
    · by_cases h2 : f.filePath ∈ ruleProc
      · simp only [collectFiles, if_neg h1, if_pos h2]
        exact ih processed ruleProc accP accA hmap
      · by_cases h3 : anyMatch valid f.lyrics
        · simp only [collectFiles, if_neg h1, if_neg h2, if_pos h3]
          apply ih
          simp only [List.map_append, hmap, List.map_cons, List.map_nil]
        · simp only [collectFiles, if_neg h1, if_neg h2, if_neg h3]
          exact ih processed ruleProc accP accA hmap

theorem collectRules_paths (cy : Nat) (files : List Track) :
    ∀ (rs : List Rule) (processed : List String) (accP accA : List MEntry),
      accP.map (fun e => e.file.filePath) = accA.map (fun e => e.file.filePath) →
      (collectRules previewKey cy files rs processed accP).map (fun e => e.file.filePath) =
        (collectRules applyKey cy files rs processed accA).map (fun e => e.file.filePath) := by
  intro rs
  induction rs with
  | nil => intro processed accP accA hmap; exact hmap
  | cons r rs ih =>
    intro processed accP accA hmap
    by_cases hv : validSearchesOf r = []
    · simp only [collectRules, if_pos hv]
      exact ih processed accP accA hmap
    · simp only [collectRules, if_neg hv]
      have h := collectFiles_paths r (validSearchesOf r) cy files processed [] accP accA hmap
      rw [← h.1]
      exact ih _ _ _ h.2

/-- Entries never change once the scanned path has been claimed. -/
theorem collectFiles_stable (k : Rule → Vars → String) (r : Rule) (valid : List String)
    (cy : Nat) (π : String) :
    ∀ (fs : List Track) (processed ruleProc : List String) (acc : List MEntry),
      π ∈ processed →
      (collectFiles k r valid cy fs processed ruleProc acc).2.filter
          (fun e => e.file.filePath == π) =
        acc.filter (fun e => e.file.filePath == π) ∧
      π ∈ (collectFiles k r valid cy fs processed ruleProc acc).1 := by
  intro fs
  induction fs with
  | nil => intro processed ruleProc acc hp; exact ⟨rfl, hp⟩
  | cons f' fs ih =>
    intro processed ruleProc acc hp
    by_cases h1 : f'.filePath ∈ processed
    · simp only [collectFiles, if_pos h1]
      exact ih processed ruleProc acc hp
    · by_cases h2 : f'.filePath ∈ ruleProc
      · simp only [collectFiles, if_neg h1, if_pos h2]
        exact ih processed ruleProc acc hp
      · by_cases h3 : anyMatch valid f'.lyrics
        · simp only [collectFiles, if_neg h1, if_neg h2, if_pos h3]
          have hne : f'.filePath ≠ π := fun hc => h1 (hc ▸ hp)
          have hfilter :
              (acc ++ [MEntry.mk acc.length f' r (k r (mkVars f' cy 1)) (mkVars f' cy 1)]).filter
                  (fun e => e.file.filePath == π) =
                acc.filter (fun e => e.file.filePath == π) := by
            rw [List.filter_append]
            rw [show ([MEntry.mk acc.length f' r (k r (mkVars f' cy 1))
                (mkVars f' cy 1)].filter (fun e => e.file.filePath == π)) = [] by
              rw [List.filter_cons, if_neg (by simpa using hne)]
              rfl]
            rw [List.append_nil]
          have := ih (processed ++ [f'.filePath]) (ruleProc ++ [f'.filePath])
            (acc ++ [MEntry.mk acc.length f' r (k r (mkVars f' cy 1)) (mkVars f' cy 1)])
            (List.mem_append_left _ hp)
          rw [hfilter] at this
          exact this
        · simp only [collectFiles, if_neg h1, if_neg h2, if_neg h3]
          exact ih processed ruleProc acc hp

/-- Entries for a claimed path never change across the remaining rules. -/
theorem collectRules_stable (k : Rule → Vars → String) (cy : Nat) (files : List Track)
    (π : String) :
    ∀ (rs : List Rule) (processed : List String) (acc : List MEntry),
      π ∈ processed →
      (collectRules k cy files rs processed acc).filter (fun e => e.file.filePath == π) =
        acc.filter (fun e => e.file.filePath == π) := by
  intro rs
  induction rs with
  | nil => intro processed acc _; rfl
  | cons r rs ih =>
    intro processed acc hp
    by_cases hv : validSearchesOf r = []
    · simp only [collectRules, if_pos hv]
      exact ih processed acc hp
    · simp only [collectRules, if_neg hv]
      have h := collectFiles_stable k r (validSearchesOf r) cy π files processed [] acc hp
      rw [ih _ _ h.2, h.1]

/-- A rule that does not match the file of interest claims nothing at its
path (given no other scanned file shares the path). -/
theorem collectFiles_nomatch (k : Rule → Vars → String) (r : Rule) (valid : List String)
    (cy : Nat) (π : String) (f : Track) (_hfp : f.filePath = π)
    (hnm : anyMatch valid f.lyrics = false) :
    ∀ (fs : List Track) (processed ruleProc : List String) (acc : List MEntry),
      (∀ x ∈ fs, x.filePath = π → x = f) →
      (collectFiles k r valid cy fs processed ruleProc acc).2.filter
          (fun e => e.file.filePath == π) =
        acc.filter (fun e => e.file.filePath == π) ∧
      (π ∈ (collectFiles k r valid cy fs processed ruleProc acc).1 ↔ π ∈ processed) := by
  intro fs
  induction fs with
  | nil => intro processed ruleProc acc _; exact ⟨rfl, Iff.rfl⟩
  | cons x fs ih =>
    intro processed ruleProc acc huniq
    have huniq' : ∀ y ∈ fs, y.filePath = π → y = f :=
      fun y hy => huniq y (List.mem_cons_of_mem x hy)
    by_cases h1 : x.filePath ∈ processed
    · simp only [collectFiles, if_pos h1]
      exact ih processed ruleProc acc huniq'
    · by_cases h2 : x.filePath ∈ ruleProc
      · simp only [collectFiles, if_neg h1, if_pos h2]
        exact ih processed ruleProc acc huniq'
      · by_cases h3 : anyMatch valid x.lyrics
        · simp only [collectFiles, if_neg h1, if_neg h2, if_pos h3]
          have hxne : x.filePath ≠ π := by
            intro hc
            have hx : x = f := huniq x (List.mem_cons_self x fs) hc
            rw [hx] at h3
            rw [h3] at hnm
            cases hnm
          have hfilter :
              (acc ++ [MEntry.mk acc.length x r (k r (mkVars x cy 1)) (mkVars x cy 1)]).filter
                  (fun e => e.file.filePath == π) =
                acc.filter (fun e => e.file.filePath == π) := by
            rw [List.filter_append]
            rw [show ([MEntry.mk acc.length x r (k r (mkVars x cy 1))
                (mkVars x cy 1)].filter (fun e => e.file.filePath == π)) = [] by
              rw [List.filter_cons, if_neg (by simpa using hxne)]
              rfl]
            rw [List.append_nil]
          have hres := ih (processed ++ [x.filePath]) (ruleProc ++ [x.filePath])
            (acc ++ [MEntry.mk acc.length x r (k r (mkVars x cy 1)) (mkVars x cy 1)]) huniq'
          rw [hfilter] at hres
          refine ⟨hres.1, hres.2.trans ?_⟩
          rw [List.mem_append, List.mem_singleton]
          constructor
          · intro hc
            rcases hc with h | h
            · exact h
            · exact absurd h.symm hxne
          · exact Or.inl
        · simp only [collectFiles, if_neg h1, if_neg h2, if_neg h3]
          exact ih processed ruleProc acc huniq'

/-- A rule that does match the file of interest, scanning a list where that
path is unclaimed, produces exactly one entry for the path, owned by itself. -/
theorem collectFiles_claims (k : Rule → Vars → String) (r : Rule) (valid : List String)
    (cy : Nat) (π : String) (f : Track) (hfp : f.filePath = π)
    (hm : anyMatch valid f.lyrics = true) :
    ∀ (fs : List Track) (processed ruleProc : List String) (acc : List MEntry),
      f ∈ fs →
      (∀ x ∈ fs, x.filePath = π → x = f) →
      π ∉ processed →
      (∀ x ∈ ruleProc, x ∈ processed) →
      acc.filter (fun e => e.file.filePath == π) = [] →
      ((collectFiles k r valid cy fs processed ruleProc acc).2.filter
          (fun e => e.file.filePath == π)).map (fun e => e.rule.id) = [r.id] ∧
      π ∈ (collectFiles k r valid cy fs processed ruleProc acc).1 := by
  intro fs
  induction fs with
  | nil => intro processed ruleProc acc hmem; cases hmem
  | cons x fs ih =>
    intro processed ruleProc acc hmem huniq hnp hrp hacc
    have huniq' : ∀ y ∈ fs, y.filePath = π → y = f :=
      fun y hy => huniq y (List.mem_cons_of_mem x hy)
    by_cases hx : x = f
    · have hxpath : x.filePath = π := by rw [hx, hfp]
      have hn1 : x.filePath ∉ processed := by rw [hxpath]; exact hnp
      have hn2 : x.filePath ∉ ruleProc := fun hc => hn1 (hrp _ hc)
      have hm' : anyMatch valid x.lyrics = true := by rw [hx]; exact hm
      simp only [collectFiles, if_neg hn1, if_neg hn2, if_pos hm']
      have hstable := collectFiles_stable k r valid cy π fs
        (processed ++ [x.filePath]) (ruleProc ++ [x.filePath])
        (acc ++ [MEntry.mk acc.length x r (k r (mkVars x cy 1)) (mkVars x cy 1)])
        (List.mem_append_right _ (List.mem_singleton.mpr hxpath.symm))
      refine ⟨?_, hstable.2⟩
      rw [hstable.1, List.filter_append, hacc, List.nil_append]
      rw [List.filter_cons, if_pos (by simp [hxpath])]
      rfl
    · have hxne : x.filePath ≠ π := by
        intro hc
        exact hx (huniq x (List.mem_cons_self x fs) hc)
      have hmem' : f ∈ fs := by
        rcases List.mem_cons.mp hmem with h | h
        · exact absurd h.symm hx
        · exact h
      by_cases h1 : x.filePath ∈ processed
      · simp only [collectFiles, if_pos h1]
        exact ih processed ruleProc acc hmem' huniq' hnp hrp hacc
      · by_cases h2 : x.filePath ∈ ruleProc
        · simp only [collectFiles, if_neg h1, if_pos h2]
          exact ih processed ruleProc acc hmem' huniq' hnp hrp hacc
        · by_cases h3 : anyMatch valid x.lyrics
          · simp only [collectFiles, if_neg h1, if_neg h2, if_pos h3]
            refine ih (processed ++ [x.filePath]) (ruleProc ++ [x.filePath])
              (acc ++ [MEntry.mk acc.length x r (k r (mkVars x cy 1)) (mkVars x cy 1)])
              hmem' huniq' ?_ ?_ ?_
            · rw [List.mem_append, List.mem_singleton]
              push_neg
              exact ⟨hnp, fun hc => hxne hc.symm⟩
            · intro y hy
              rcases List.mem_append.mp hy with h | h
              · exact List.mem_append_left _ (hrp y h)
              · exact List.mem_append_right _ h
            · rw [List.filter_append, hacc, List.nil_append]
              rw [List.filter_cons, if_neg (by simpa using hxne)]
              rfl
          · simp only [collectFiles, if_neg h1, if_neg h2, if_neg h3]
            exact ih processed ruleProc acc hmem' huniq' hnp hrp hacc

/-- First-matching-rule ownership: the matched path's entries in the whole
rule loop are exactly one entry owned by the first rule matching the file. -/
theorem collectRules_ownership (k : Rule → Vars → String) (cy : Nat)
    (files : List Track) (π : String) (f : Track) (hfp : f.filePath = π)
    (hf : f ∈ files) (huniq : ∀ x ∈ files, x.filePath = π → x = f) :
    ∀ (rs : List Rule) (processed : List String) (acc : List MEntry) (r₀ : Rule),
      rs.find? (fun r => matchesRule r f) = some r₀ →
      π ∉ processed →
      acc.filter (fun e => e.file.filePath == π) = [] →
      ((collectRules k cy files rs processed acc).filter
          (fun e => e.file.filePath == π)).map (fun e => e.rule.id) = [r₀.id] := by
  intro rs
  induction rs with
  | nil => intro processed acc r₀ hfind; cases hfind
  | cons r rs ih =>
    intro processed acc r₀ hfind hnp hacc
    by_cases hv : validSearchesOf r = []
    · have hpr : matchesRule r f = false := by
        unfold matchesRule
        rw [hv]
        rfl
      rw [List.find?_cons_of_neg _ (by simp [hpr])] at hfind
      simp only [collectRules, if_pos hv]
      exact ih processed acc r₀ hfind hnp hacc
    · by_cases hm : anyMatch (validSearchesOf r) f.lyrics = true
      · have hpr : matchesRule r f = true := by
          unfold matchesRule
          rw [hm, Bool.and_true]
          simpa using hv
        rw [List.find?_cons_of_pos _ (by simp [hpr])] at hfind
        cases hfind
        simp only [collectRules, if_neg hv]
        have hcl := collectFiles_claims k r (validSearchesOf r) cy π f hfp hm files
          processed [] acc hf huniq hnp (fun x hx => absurd hx (List.not_mem_nil x)) hacc
        rw [collectRules_stable k cy files π rs _ _ hcl.2]
        exact hcl.1
      · have hpr : matchesRule r f = false := by
          unfold matchesRule
          rw [show anyMatch (validSearchesOf r) f.lyrics = false by
            simpa using hm]
          exact Bool.and_false _
        rw [List.find?_cons_of_neg _ (by simp [hpr])] at hfind
        simp only [collectRules, if_neg hv]
        have hnm := collectFiles_nomatch k r (validSearchesOf r) cy π f hfp
          (by simpa using hm) files processed [] acc huniq
        exact ih _ _ r₀ hfind (fun hc => hnp (hnm.2.mp hc)) (by rw [hnm.1, hacc])

/-- C2: in both the preview pass and the apply pass, every track yields at most
one match entry (the dedup key is the file path); for track lists with
pairwise-distinct paths, the one entry a matched track yields is owned by the
first rule in list order that matches it; and in the concrete two-rule
scenario where both rules match the same track's lyrics, exactly one entry
exists and it is owned by rule 1. -/
theorem claim2_match_exclusivity :
    (∀ (rules : List Rule) (files : List Track) (cy : Nat),
        (collectPreview rules files cy).Pairwise
          (fun a b => a.file.filePath ≠ b.file.filePath)) ∧
      (∀ (rules : List Rule) (files : List Track) (cy : Nat),
        (collectApply rules files cy).Pairwise
          (fun a b => a.file.filePath ≠ b.file.filePath)) ∧
      (∀ (rules : List Rule) (files : List Track) (cy : Nat) (f : Track) (r₀ : Rule),
        (files.map Track.filePath).Nodup → f ∈ files →
        rules.find? (fun r => matchesRule r f) = some r₀ →
        ((collectPreview rules files cy).filter
            (fun e => e.file.filePath == f.filePath)).map (fun e => e.rule.id) = [r₀.id]) ∧
      (collectPreview [ruleOne, ruleZ] [trackOne] 2024).map
          (fun e => (e.file.filePath, e.rule.id)) = [("p1", 1)] := by
  refine ⟨?_, ?_, ?_, by rfl⟩
  · intro rules files cy
    exact collectRules_inv previewKey cy files rules [] [] (by intro e he; cases he)
      (List.Pairwise.nil)
  · intro rules files cy
    exact collectRules_inv applyKey cy files rules [] [] (by intro e he; cases he)
      (List.Pairwise.nil)
  · intro rules files cy f r₀ hnd hf hfind
    exact collectRules_ownership previewKey cy files f.filePath f rfl hf
      (fun x hx hc => List.inj_on_of_nodup_map hnd hx hf hc)
      rules [] [] r₀ hfind (List.not_mem_nil _) rfl

/-- Amended C1: the apply pass recomputes exactly the same matched tracks, in
the same order, as an immediately preceding preview pass over the same rules
and tracks (the assigned numbers and rendered values can differ, because the
two passes group and number the matches differently). -/
theorem claim1_amended (rules : List Rule) (files : List Track) (cy : Nat) :
    (collectApply rules files cy).map (fun e => e.file.filePath) =
      (collectPreview rules files cy).map (fun e => e.file.filePath) :=
  (collectRules_paths cy files rules [] [] [] rfl).symm

/-- C2 witness: the exclusivity invariant and the first-rule-ownership
property evaluated on a concrete pass where both rules match the track. -/
theorem claim2_witness :
    (collectPreview [ruleOne, ruleZ] [trackOne] 2024).Pairwise
        (fun a b => a.file.filePath ≠ b.file.filePath) ∧
      ((collectPreview [ruleOne, ruleZ] [trackOne] 2024).filter
          (fun e => e.file.filePath == trackOne.filePath)).map (fun e => e.rule.id) =
        [ruleOne.id] :=
  ⟨claim2_match_exclusivity.1 [ruleOne, ruleZ] [trackOne] 2024,
    claim2_match_exclusivity.2.2.1 [ruleOne, ruleZ] [trackOne] 2024 trackOne ruleOne
      (by decide) (by decide) (by rfl)⟩

/-- C1 amended-claim witness at a concrete rule and track list. -/
theorem claim1_witness :
    (collectApply [ruleOne, ruleTwo] [trackOne, trackTwo] 2024).map
        (fun e => e.file.filePath) =
      (collectPreview [ruleOne, ruleTwo] [trackOne, trackTwo] 2024).map
        (fun e => e.file.filePath) :=
  claim1_amended [ruleOne, ruleTwo] [trackOne, trackTwo] 2024

/-- C1 counterexample: with two rules whose album templates render to the same
name, the preview pass numbers each rule's group separately while the apply
pass numbers the merged group, so the second track gets number 1 in preview but
number 2 in apply, and its rendered filename differs accordingly. -/
theorem claim1_counterexample :
    (previewNaming [ruleOne, ruleTwo] [trackOne, trackTwo] 2024).map pn =
        [("p1", 1), ("p2", 1)] ∧
      (applyNamingCompute [ruleOne, ruleTwo] [trackOne, trackTwo] 2024).map pn =
        [("p1", 1), ("p2", 2)] ∧
      (previewNaming [ruleOne, ruleTwo] [trackOne, trackTwo] 2024).map
          (fun r => r.newFilename) = ["F1.mp3", "F1.mp3"] ∧
      (applyNamingCompute [ruleOne, ruleTwo] [trackOne, trackTwo] 2024).map
          (fun r => r.newFilename) = ["F1.mp3", "F2.mp3"] :=
  ⟨rfl, rfl, rfl, rfl⟩

/-! ## Numbering-resolver lemmas: claims C3, C4, C5 -/

/-- Once the loop counter has passed every recorded number, the loop drains
`withoutTrack` in order, assigning consecutive counter values. -/
theorem loopA_drain (wt : List MEntry) (total : Nat) :
    ∀ (wo : List MEntry) (fuel ct : Nat) (assigned : List Nat) (acc : List MatchRec),
      (∀ e ∈ wt, tnNat e < ct) →
      assigned.length + wo.length = total →
      (∀ e ∈ wo, e.idx ∉ assigned) →
      (wo.map MEntry.idx).Nodup →
      wo.length ≤ fuel →
      loopA wt total fuel ct assigned wo acc = acc ++ numberRecs ct wo := by
  intro wo
  induction wo with
  | nil =>
    intro fuel ct assigned acc _ htot _ _ _
    have h0 : assigned.length = total := by simpa using htot
    rw [show numberRecs ct [] = [] from rfl, List.append_nil]
    cases fuel with
    | zero => rfl
    | succ f =>
      simp only [loopA]
      rw [if_neg (by omega)]
  | cons e rest ih =>
    intro fuel ct assigned acc hwt htot hfr hnd hfuel
    have htot' : assigned.length + (rest.length + 1) = total := by simpa using htot
    have hfuel' : rest.length + 1 ≤ fuel := by simpa using hfuel
    have hnd' : e.idx ∉ rest.map MEntry.idx ∧ (rest.map MEntry.idx).Nodup := by
      have h := hnd
      rw [List.map_cons, List.nodup_cons] at h
      exact h
    cases fuel with
    | zero => omega
    | succ f =>
      have hfind : wt.find? (fun x => tnNat x == ct) = none := by
        rw [List.find?_eq_none]
        intro x hx
        simp only [beq_iff_eq]
        exact Nat.ne_of_lt (hwt x hx)
      have hadd : addAssigned assigned e.idx = assigned ++ [e.idx] := by
        unfold addAssigned
        rw [if_neg (hfr e (List.mem_cons_self e rest))]
      simp only [loopA, hfind]
      rw [if_pos (by omega), hadd]
      rw [ih f (ct + 1) (assigned ++ [e.idx]) (acc ++ [mkRec e ct])
        (fun x hx => Nat.lt_succ_of_lt (hwt x hx))
        (by simp only [List.length_append]; simpa using (by omega :
            assigned.length + 1 + rest.length = total))
        (by
          intro x hx
          rw [List.mem_append, List.mem_singleton]
          push_neg
          refine ⟨hfr x (List.mem_cons_of_mem e hx), ?_⟩
          intro hc
          exact hnd'.1 (hc ▸ List.mem_map_of_mem MEntry.idx hx))
        hnd'.2
        (by omega)]
      rw [show numberRecs ct (e :: rest) = mkRec e ct :: numberRecs (ct + 1) rest from rfl]
      simp [List.append_assoc]

/-- While every value from the current counter up to `k` is claimed by exactly
one pending recorded number, branch 1 fires each iteration: every recorded
entry keeps its own number, after which `withoutTrack` is drained from `k+1`
upward. -/
theorem loopA_contig (wt : List MEntry) (total k : Nat)
    (hbd : ∀ e ∈ wt, 1 ≤ tnNat e ∧ tnNat e ≤ k)
    (hfull : ∀ i, 1 ≤ i → i ≤ k → ∃ e ∈ wt, tnNat e = i)
    (hndtn : (wt.map tnNat).Nodup)
    (hndidx : (wt.map MEntry.idx).Nodup) :
    ∀ (d : Nat), ∀ (ct : Nat) (wo : List MEntry) (assigned : List Nat)
      (acc : List MatchRec) (fuel : Nat),
      ct + d = k + 1 → 1 ≤ ct →
      (∀ e ∈ wt, (tnNat e < ct ↔ e.idx ∈ assigned)) →
      (∀ i ∈ assigned, ∃ e ∈ wt, e.idx = i) →
      assigned.length = ct - 1 →
      (∀ e ∈ wo, e.idx ∉ wt.map MEntry.idx) →
      (wo.map MEntry.idx).Nodup →
      total = k + wo.length →
      d + wo.length ≤ fuel →
      loopA wt total fuel ct assigned wo acc =
        acc ++ byTn wt ct d ++ numberRecs (k + 1) wo := by
  intro d
  induction d with
  | zero =>
    intro ct wo assigned acc fuel hct _ _ hsub hal hwo hnd htot hfuel
    have hck : ct = k + 1 := by omega
    subst hck
    rw [show byTn wt (k + 1) 0 = [] from rfl, List.append_nil]
    exact loopA_drain wt total wo fuel (k + 1) assigned acc
      (fun e he => Nat.lt_succ_of_le (hbd e he).2)
      (by omega)
      (fun e he hc => by
        rcases hsub e.idx hc with ⟨e', he', hi⟩
        exact hwo e he (hi ▸ List.mem_map_of_mem MEntry.idx he'))
      hnd (by omega)
  | succ d ih =>
    intro ct wo assigned acc fuel hct hct1 hiff hsub hal hwo hnd htot hfuel
    have hctk : ct ≤ k := by omega
    rcases hfull ct hct1 hctk with ⟨e', he', htn'⟩
    have hfs : (wt.find? (fun x => tnNat x == ct)).isSome := by
      rw [List.find?_isSome]
      exact ⟨e', he', by simp [htn']⟩
    rcases Option.isSome_iff_exists.mp hfs with ⟨e₀, hfind⟩
    have he₀ : e₀ ∈ wt := List.mem_of_find?_eq_some hfind
    have htn₀ : tnNat e₀ = ct := by simpa using List.find?_some hfind
    have hnotin : e₀.idx ∉ assigned := fun hc => by
      have := (hiff e₀ he₀).mpr hc
      omega
    cases fuel with
    | zero => omega
    | succ f =>
      simp only [loopA, hfind]
      rw [if_pos (by omega)]
      have hadd : addAssigned assigned e₀.idx = assigned ++ [e₀.idx] := by
        unfold addAssigned
        rw [if_neg hnotin]
      rw [hadd]
      rw [ih (ct + 1) wo (assigned ++ [e₀.idx]) (acc ++ [mkRec e₀ ct]) f
        (by omega) (by omega)
        (by
          intro e he
          rw [List.mem_append, List.mem_singleton]
          constructor
          · intro hlt
            rcases Nat.lt_succ_iff_lt_or_eq.mp hlt with h | h
            · exact Or.inl ((hiff e he).mp h)
            · refine Or.inr ?_
              have : e = e₀ := List.inj_on_of_nodup_map hndtn he he₀ (by rw [h, htn₀])
              rw [this]
          · intro hmem
            rcases hmem with h | h
            · exact Nat.lt_succ_of_lt ((hiff e he).mpr h)
            · have : e = e₀ := List.inj_on_of_nodup_map hndidx he he₀ h
              rw [this, htn₀]
              omega)
        (by
          intro i hi
          rcases List.mem_append.mp hi with h | h
          · exact hsub i h
          · exact ⟨e₀, he₀, (List.mem_singleton.mp h).symm⟩)
        (by simp only [List.length_append, List.length_singleton]; omega)
        hwo hnd htot (by omega)]
      have hbyTn : byTn wt ct (d + 1) = mkRec e₀ ct :: byTn wt (ct + 1) d := by
        unfold byTn
        rw [List.range'_succ]
        refine List.filterMap_cons_some ?_
        simp [hfind]
      rw [hbyTn]
      simp [List.append_assoc]

/-- A group in which no entry carries a usable track number splits into an
empty `withTrack` and the whole group as `withoutTrack`, in order. -/
theorem splitApply_all_zero (g : List MEntry) (h : ∀ e ∈ g, tnNat e = 0) :
    splitApply g = ([], g) := by
  have hfold : ∀ (l : List MEntry), (∀ e ∈ l, tnNat e = 0) →
      ∀ (m : List (Nat × List MEntry)) (w : List MEntry),
      l.foldl splitStep (m, w) = (m, w ++ l) := by
    intro l
    induction l with
    | nil => intro _ m w; simp
    | cons e rest ih =>
      intro hl m w
      have he : tnNat e = 0 := hl e (List.mem_cons_self e rest)
      have hstep : splitStep (m, w) e = (m, w ++ [e]) := by
        unfold splitStep
        rw [if_neg (by omega)]
      rw [List.foldl_cons, hstep, ih (fun x hx => hl x (List.mem_cons_of_mem e hx))]
      simp
  unfold splitApply
  rw [hfold g h [] []]
  simp

/-- Amended C3: entries without a usable pre-existing number are numbered in
input order by the loop counter, which starts at 1 and fills every value not
claimed by a pending recorded number — `rule.startNumber` and the title order
play no role.  In particular a group with no usable numbers is numbered
`1..N` in input order, and a group with recorded numbers `1,2,5` plus one new
entry gives the new entry the gap value `3` (and renumbers the `5` down to
`4`). -/
theorem claim3_amended :
    (∀ (g : List MEntry), (∀ e ∈ g, tnNat e = 0) → (g.map MEntry.idx).Nodup →
        applyResolve g = numberRecs 1 g) ∧
      (applyResolve [mkEntry 0 "a" (some 1), mkEntry 1 "b" (some 2),
          mkEntry 2 "c" (some 5), mkEntry 3 "w" none]).map pn =
        [("a", 1), ("b", 2), ("w", 3), ("c", 4)] := by
  refine ⟨?_, by rfl⟩
  intro g hz hnd
  unfold applyResolve
  rw [splitApply_all_zero g hz]
  simp only
  rw [loopA_drain [] (([] : List MEntry).length + g.length) g
    (highestTn [] + (([] : List MEntry).length + g.length) + 1) 1 [] []
    (by intro e he; cases he)
    (by simp)
    (by intro e _; exact List.not_mem_nil e.idx)
    hnd
    (by simp [highestTn])]
  simp

/-- C3 witness: a two-entry group with no usable numbers is numbered 1, 2 in
input order. -/
theorem claim3_witness :
    applyResolve [mkEntry 0 "a" none, mkEntry 1 "b" none] =
      numberRecs 1 [mkEntry 0 "a" none, mkEntry 1 "b" none] :=
  claim3_amended.1 [mkEntry 0 "a" none, mkEntry 1 "b" none] (by decide) (by decide)

/-- C3 counterexample: in a group holding one entry with recorded number 5 and
one unnumbered entry, under a rule with `startNumber = 3`, the claim predicts
the unnumbered entry receives `max(1 + 5, 3) = 6`; the resolver instead gives
it 1 (and renumbers the recorded 5 down to 2). -/
theorem claim3_counterexample :
    (applyResolve [entryS 0 "a" (some 5), entryS 1 "w" none]).map pn =
        [("w", 1), ("a", 2)] ∧
      ∀ r ∈ applyResolve [entryS 0 "a" (some 5), entryS 1 "w" none], r.number ≠ 6 := by
  exact ⟨rfl, by decide⟩

/-- Amended C4: in a group whose deduplicated recorded numbers are exactly
`1..k` (gap-free from 1), every first claimant of a number keeps exactly that
number, and all remaining entries — unnumbered ones and later claimants of an
already-claimed number, which the split phase moves into the reassignment
pool — receive `k+1, k+2, ...` in pool order. -/
theorem claim4_amended (g : List MEntry) (wt wo : List MEntry) (k : Nat)
    (hsplit : splitApply g = (wt, wo))
    (hlen : wt.length = k)
    (hbd : ∀ e ∈ wt, 1 ≤ tnNat e ∧ tnNat e ≤ k)
    (hfull : ∀ i, 1 ≤ i → i ≤ k → ∃ e ∈ wt, tnNat e = i)
    (hndtn : (wt.map tnNat).Nodup)
    (hndidx : (wt.map MEntry.idx).Nodup)
    (hdisj : ∀ e ∈ wo, e.idx ∉ wt.map MEntry.idx)
    (hndwo : (wo.map MEntry.idx).Nodup) :
    applyResolve g = byTn wt 1 k ++ numberRecs (k + 1) wo := by
  unfold applyResolve
  rw [hsplit]
  simp only
  rw [loopA_contig wt (wt.length + wo.length) k hbd hfull hndtn hndidx k 1 wo [] []
    (highestTn wt + (wt.length + wo.length) + 1)
    (by omega) (by omega)
    (by
      intro e he
      constructor
      · intro hlt
        exact absurd hlt (by have := (hbd e he).1; omega)
      · intro hmem
        cases hmem)
    (by intro i hi; cases hi)
    (by simp)
    hdisj hndwo (by omega) (by omega)]
  simp

/-- C4 counterexample: an entry with recorded number 5 in a group whose other
entry has recorded number 2 — no collision anywhere — does not keep its 5: the
resolver's gap branch renumbers it to 1. -/
theorem claim4_counterexample :
    (applyResolve [mkEntry 0 "a" (some 2), mkEntry 1 "b" (some 5)]).map pn =
        [("b", 1), ("a", 2)] ∧
      ∀ r ∈ applyResolve [mkEntry 0 "a" (some 2), mkEntry 1 "b" (some 5)],
        r.originalPath = "b" → r.number ≠ 5 := by
  exact ⟨rfl, by decide⟩

/-- C4 witness: a group in which two entries both claim number 1 (numbers
gap-free with k = 1): the first claimant keeps 1, the later claimant is moved
to the pool and reassigned 2. -/
theorem claim4_witness :
    (applyResolve [mkEntry 0 "a" (some 1), mkEntry 1 "b" (some 1)]).map pn =
      [("a", 1), ("b", 2)] := by
  have h := claim4_amended [mkEntry 0 "a" (some 1), mkEntry 1 "b" (some 1)]
    [mkEntry 0 "a" (some 1)] [mkEntry 1 "b" (some 1)] 1
    (by rfl) (by rfl) (by decide)
    (by
      intro i h1 h2
      have : i = 1 := by omega
      subst this
      exact ⟨mkEntry 0 "a" (some 1), by decide⟩)
    (by decide) (by decide) (by decide) (by decide)
  rw [h]
  rfl

/-- C5 as a bug witness: a group of two entries with recorded numbers 5 and 3
makes the apply resolver emit three records — the entry with number 5 receives
two different numbers (1 and then 2) in two separate output records — instead
of exactly one record and one number per entry. -/
theorem claim5_duplicate_records :
    (applyResolve [mkEntry 0 "a" (some 5), mkEntry 1 "b" (some 3)]).map pn =
        [("a", 1), ("a", 2), ("b", 3)] ∧
      ((applyResolve [mkEntry 0 "a" (some 5), mkEntry 1 "b" (some 3)]).filter
          (fun r => r.originalPath == "a")).length = 2 := by
  exact ⟨rfl, rfl⟩

/-! ## Genre-cleanup lemmas and claim C6 -/

theorem insertByLen_length (g : String) (l : List String) :
    (insertByLen g l).length = l.length + 1 := by
  induction l with
  | nil => rfl
  | cons h t ih =>
    by_cases hgl : g.length < h.length
    · simp [insertByLen, if_pos hgl]
    · simp [insertByLen, if_neg hgl, ih]

theorem sortByLen_length (l : List String) : (sortByLen l).length = l.length := by
  induction l with
  | nil => rfl
  | cons h t ih => simp [sortByLen, insertByLen_length, ih]

theorem twoShortest_ne_nil (l : List String) (h : 3 ≤ l.length) : twoShortest l ≠ [] := by
  intro hc
  have : (twoShortest l).length = 0 := by rw [hc]; rfl
  rw [twoShortest, List.length_take, sortByLen_length] at this
  omega

/-- C6: genre cleanup returns the set difference when non-empty; an emptied
list falls back to the whole original (at most two genres) or to its two
shortest genres (three or more); a track with at least one genre never ends up
with none. -/
theorem claim6_clean_genre (gs rem : List String) (hne : gs ≠ []) :
    cleanGenre gs rem ≠ [] ∧
      (genreDiff gs rem ≠ [] → cleanGenre gs rem = genreDiff gs rem) ∧
      (genreDiff gs rem = [] → gs.length ≤ 2 → cleanGenre gs rem = gs) ∧
      (genreDiff gs rem = [] → 3 ≤ gs.length → cleanGenre gs rem = twoShortest gs) := by
  unfold cleanGenre
  by_cases hd : genreDiff gs rem ≠ []
  · rw [if_pos hd]
    exact ⟨hd, fun _ => rfl, fun h => absurd h hd, fun h => absurd h hd⟩
  · rw [if_neg hd]
    push_neg at hd
    by_cases hl : gs.length ≤ 2
    · rw [if_pos hl]
      exact ⟨hne, fun h => absurd hd h, fun _ _ => rfl, fun _ h3 => by omega⟩
    · rw [if_neg hl]
      have h3 : 3 ≤ gs.length := by omega
      exact ⟨twoShortest_ne_nil gs h3, fun h => absurd hd h, fun _ h2 => by omega,
        fun _ _ => rfl⟩

/-- C6 witness: on the spec's five-genre example with every genre selected for
removal, cleanup keeps exactly the two shortest genres. -/
theorem claim6_witness :
    (["electronic", "dark", "atmospheric", "emd", "glitch"] : List String) ≠ [] ∧
      cleanGenre ["electronic", "dark", "atmospheric", "emd", "glitch"]
        ["electronic", "dark", "atmospheric", "emd", "glitch"] = ["emd", "dark"] := by
  refine ⟨by decide, ?_⟩
  have h := (claim6_clean_genre ["electronic", "dark", "atmospheric", "emd", "glitch"]
    ["electronic", "dark", "atmospheric", "emd", "glitch"] (by decide)).2.2.2
  rw [h (by decide) (by decide)]
  rfl

/-! ## Per-file apply step: claim C10 -/

/-- C10: when the file exists, its tags were read and written successfully,
and the rename then fails, the per-file result reports success with a rename
warning, keeps the original filename (both in the report and on disk), and the
loop processes the remaining files unchanged. -/
theorem claim10_rename_warning (m : MatchRec) (o : FsOutcome)
    (ms : List MatchRec) (os : List FsOutcome)
    (hf : o.fileFound = true) (hr : o.readOk = true) (hw : o.writeOk = true)
    (hdiff : m.newFilename ≠ m.originalFilename) (hren : o.renameOk = false) :
    (applyOneFile m o).success = true ∧
      (applyOneFile m o).warning =
        some ("Metadata updated but file rename failed: " ++ o.renameMsg) ∧
      (applyOneFile m o).newFilename = some m.originalFilename ∧
      (applyOneFile m o).fsName = m.originalFilename ∧
      (applyOneFile m o).error = none ∧
      applyFiles (m :: ms) (o :: os) = applyOneFile m o :: applyFiles ms os := by
  have : applyOneFile m o =
      FileResult.mk m.originalFilename true none
        (some ("Metadata updated but file rename failed: " ++ o.renameMsg))
        (some m.originalFilename) m.originalFilename := by
    unfold applyOneFile
    rw [hf, hr, hw, if_neg (by decide), if_neg (by decide), if_neg (by decide),
      if_pos hdiff, hren]
    rfl
  exact ⟨by rw [this], by rw [this], by rw [this], by rw [this], by rw [this], rfl⟩

/-- C10 witness at a concrete match record and outcome. -/
theorem claim10_witness :
    (applyOneFile (MatchRec.mk "old.mp3" "p" "new.mp3" "A" "T" "L" "oa" "ot" "ol" 1 2)
        (FsOutcome.mk true true true false false "EACCES")).success = true ∧
      (applyOneFile (MatchRec.mk "old.mp3" "p" "new.mp3" "A" "T" "L" "oa" "ot" "ol" 1 2)
        (FsOutcome.mk true true true false false "EACCES")).fsName = "old.mp3" := by
  have h := claim10_rename_warning
    (MatchRec.mk "old.mp3" "p" "new.mp3" "A" "T" "L" "oa" "ot" "ol" 1 2)
    (FsOutcome.mk true true true false false "EACCES") [] []
    rfl rfl rfl (by decide) rfl
  exact ⟨h.1, h.2.2.2.1⟩

/-! ## Conflict-rename lemmas: claim C9 -/

theorem filter_length_mono (l : List Nat) (p q : Nat → Bool)
    (h : ∀ x, p x = true → q x = true) :
    (l.filter p).length ≤ (l.filter q).length := by
  induction l with
  | nil => exact Nat.le_refl _
  | cons x t ih =>
    by_cases hp : p x = true
    · rw [List.filter_cons_of_pos hp, List.filter_cons_of_pos (h x hp)]
      simpa using ih
    · rw [List.filter_cons_of_neg (by simpa using hp)]
      by_cases hq : q x = true
      · rw [List.filter_cons_of_pos hq]
        exact Nat.le_trans ih (by simp)
      · rw [List.filter_cons_of_neg (by simpa using hq)]
        exact ih

theorem filter_succ_lt (used : List Nat) (n : Nat) (h : n ∈ used) :
    (used.filter (fun m => decide (n + 1 ≤ m))).length <
      (used.filter (fun m => decide (n ≤ m))).length := by
  induction used with
  | nil => cases h
  | cons x t ih =>
    by_cases hx : x = n
    · subst hx
      rw [List.filter_cons, List.filter_cons]
      rw [if_neg (by simp), if_pos (by simp)]
      have := filter_length_mono t (fun m => decide (x + 1 ≤ m)) (fun m => decide (x ≤ m))
        (fun m hm => by simp at hm ⊢; omega)
      simp only [List.length_cons]
      omega
    · have hmem : n ∈ t := by
        rcases List.mem_cons.mp h with h1 | h1
        · exact absurd h1.symm hx
        · exact h1
      rw [List.filter_cons, List.filter_cons]
      by_cases h1 : n + 1 ≤ x
      · rw [if_pos (by simpa using h1), if_pos (by simp only [decide_eq_true_eq]; omega)]
        simp only [List.length_cons]
        have := ih hmem
        omega
      · by_cases h2 : n ≤ x
        · exact absurd (by omega : x = n) hx
        · rw [if_neg (by simpa using h1), if_neg (by simpa using h2)]
          exact ih hmem

theorem nextAvailGo_not_mem (used : List Nat) :
    ∀ (f n : Nat), (used.filter (fun m => decide (n ≤ m))).length < f →
      nextAvailGo used f n ∉ used := by
  intro f
  induction f with
  | zero => intro n h; omega
  | succ f ih =>
    intro n h
    unfold nextAvailGo
    by_cases hm : n ∈ used
    · rw [if_pos hm]
      exact ih (n + 1) (by have := filter_succ_lt used n hm; omega)
    · rw [if_neg hm]
      exact hm

/-- The conflict-resolution scan never picks a number that is still in use. -/
theorem nextAvail_not_mem (used : List Nat) (s : Nat) : nextAvail used s ∉ used := by
  apply nextAvailGo_not_mem
  have := List.length_filter_le (fun m => decide (s ≤ m)) used
  omega

theorem dropPre_append (p x : List Char) : dropPre p (p ++ x) = some x := by
  induction p with
  | nil => rfl
  | cons c cs ih => simpa [dropPre] using ih

theorem endsWithMp3_append (x : List Char) :
    endsWithMp3 ⟨x ++ ".mp3".data⟩ = true := by
  unfold endsWithMp3
  show (".mp3".data.reverse.isPrefixOf (x ++ ".mp3".data).reverse) = true
  rw [List.reverse_append]
  exact isPrefixOf_append_self _ _

theorem stripMp3_append (x : List Char) : stripMp3 ⟨x ++ ".mp3".data⟩ = x := by
  unfold stripMp3
  show ((x ++ ".mp3".data).reverse.drop ".mp3".length).reverse = x
  rw [List.reverse_append]
  rw [show (".mp3".length : Nat) = (".mp3".data.reverse).length from rfl]
  rw [List.drop_left, List.reverse_reverse]

/-- Helper: the first element surviving `dropWhile` fails the predicate. -/
theorem dropWhile_head_false (p : Char → Bool) :
    ∀ (l : List Char) (c : Char) (cs : List Char),
      l.dropWhile p = c :: cs → p c = false := by
  intro l
  induction l with
  | nil => intro c cs h; cases h
  | cons x t ih =>
    intro c cs h
    by_cases hx : p x = true
    · rw [List.dropWhile_cons_of_pos hx] at h
      exact ih c cs h
    · rw [List.dropWhile_cons_of_neg (by simpa using hx)] at h
      cases h
      simpa using hx

theorem splitRun_cons_digit (c : Char) (cs : List Char) (h : c.isDigit = true) :
    splitFirstDigitRun (c :: cs) =
      some ([], (c :: cs).takeWhile Char.isDigit, (c :: cs).dropWhile Char.isDigit) := by
  simp [splitFirstDigitRun, h]

theorem splitRun_cons_nondigit (c : Char) (cs : List Char) (h : ¬c.isDigit = true) :
    splitFirstDigitRun (c :: cs) =
      (splitFirstDigitRun cs).map (fun x => (c :: x.1, x.2.1, x.2.2)) := by
  simp [splitFirstDigitRun, h]

/-- Specification of `splitFirstDigitRun`. -/
theorem splitRun_spec (s : List Char) :
    ∀ (b run a : List Char), splitFirstDigitRun s = some (b, run, a) →
      s = b ++ run ++ a ∧ run ≠ [] ∧ (∀ c ∈ run, c.isDigit = true) ∧
        (a = [] ∨ ∃ c cs, a = c :: cs ∧ c.isDigit = false) := by
  induction s with
  | nil => intro b run a h; cases h
  | cons c cs ih =>
    intro b run a h
    by_cases hd : c.isDigit = true
    · rw [splitRun_cons_digit c cs hd] at h
      cases h
      refine ⟨by rw [List.nil_append, List.takeWhile_append_dropWhile], ?_, ?_, ?_⟩
      · rw [List.takeWhile_cons_of_pos hd]
        exact List.cons_ne_nil _ _
      · intro x hx
        exact List.mem_takeWhile_imp hx
      · cases ha : (c :: cs).dropWhile Char.isDigit with
        | nil => exact Or.inl rfl
        | cons y ys => exact Or.inr ⟨y, ys, rfl, dropWhile_head_false Char.isDigit _ y ys ha⟩
    · rw [splitRun_cons_nondigit c cs hd] at h
      cases hcs : splitFirstDigitRun cs with
      | none => rw [hcs] at h; cases h
      | some x =>
        rw [hcs] at h
        rcases x with ⟨b', run', a'⟩
        cases h
        rcases ih b' run' a' hcs with ⟨heq, hne, hdig, ha⟩
        exact ⟨by rw [List.cons_append, List.cons_append, ← heq], hne, hdig, ha⟩

/-- A name that is literally `before ++ digits ++ after` captures those
digits. -/
theorem captureNum_structural (b s a : List Char)
    (hs : ∀ c ∈ s, c.isDigit = true) (hsne : s ≠ [])
    (ha : a = [] ∨ ∃ c cs, a = c :: cs ∧ c.isDigit = false) :
    captureNum b a (b ++ s ++ a) = some (parseDigits s) := by
  unfold captureNum
  rw [List.append_assoc, dropPre_append]
  have htw := takeWhile_all_append Char.isDigit s a hs ha
  simp only [htw.1, htw.2]
  simp [List.isEmpty_iff, hsne]

/-- Amended C9: the conflict-resolution scan re-renders with the lowest number
`>= rule.startNumber` not captured at the first-digit-run position of any
existing `.mp3` file; when the re-rendered name really places that number's
digits at the pattern's digit slot (the structural hypothesis), the new
destination differs from every file in the directory listing. -/
theorem claim9_amended (listing : List String) (r : Rule) (v : Vars) (nf : String)
    (b run a s : List Char)
    (hsplit : splitFirstDigitRun (stripMp3 nf) = some (b, run, a))
    (hs : ∀ c ∈ s, c.isDigit = true) (hsne : s ≠ [])
    (hval : parseDigits s = nextAvail (usedNumbersOf listing nf) r.startNumber)
    (hstruct : (resolveConflictName listing r v nf).data = b ++ s ++ a ++ ".mp3".data) :
    resolveConflictName listing r v nf ∉ listing := by
  intro hmem
  have hF : resolveConflictName listing r v nf = ⟨b ++ s ++ a ++ ".mp3".data⟩ := by
    have h := congrArg String.mk hstruct
    rw [stringEta] at h
    exact h
  have hassoc : b ++ s ++ a ++ ".mp3".data = (b ++ s ++ a) ++ ".mp3".data := by
    simp [List.append_assoc]
  have hends : endsWithMp3 (resolveConflictName listing r v nf) = true := by
    rw [hF, hassoc]
    exact endsWithMp3_append _
  have hstrip : stripMp3 (resolveConflictName listing r v nf) = b ++ s ++ a := by
    rw [hF, hassoc]
    exact stripMp3_append _
  have haprop := (splitRun_spec (stripMp3 nf) b run a hsplit).2.2.2
  have hcap : captureNum b a (stripMp3 (resolveConflictName listing r v nf)) =
      some (parseDigits s) := by
    rw [hstrip]
    exact captureNum_structural b s a hs hsne haprop
  have hused : parseDigits s ∈ usedNumbersOf listing nf := by
    simp only [usedNumbersOf, hsplit]
    exact List.mem_filterMap.mpr
      ⟨resolveConflictName listing r v nf, List.mem_filter.mpr ⟨hmem, hends⟩, hcap⟩
  rw [hval] at hused
  exact nextAvail_not_mem _ _ hused

/-- C9 counterexample: when the rendered name's first digit run is not the
number slot (template `A1B \x7bnumber\x7d`, rendered `A1B 2`), the scan captures
the `1` inside `A1B`, picks `next = 2 = startNumber`, and re-renders exactly
the already-existing destination — the rename overwrites (or fails on) an
existing file instead of avoiding it. -/
theorem claim9_counterexample :
    resolveConflictName ["A1B 2.mp3", "orig.mp3"] ruleA1B varsC "A1B 2.mp3" =
        "A1B 2.mp3" ∧
      "A1B 2.mp3" ∈ (["A1B 2.mp3", "orig.mp3"] : List String) :=
  ⟨rfl, by decide⟩

/-- C9 witness: the spec's own scenario — `005 - X.mp3` through `009 - X.mp3`
exist, the template is `\x7bnumber:03d\x7d - X` with start number 5 — re-renders to
`010 - X.mp3`, which collides with nothing. -/
theorem claim9_witness :
    resolveConflictName ["005 - X.mp3", "006 - X.mp3", "007 - X.mp3", "008 - X.mp3",
        "009 - X.mp3"] rulePad varsC "005 - X.mp3" ∉
      (["005 - X.mp3", "006 - X.mp3", "007 - X.mp3", "008 - X.mp3",
        "009 - X.mp3"] : List String) :=
  claim9_amended _ rulePad varsC "005 - X.mp3" [] "005".data " - X".data "010".data
    rfl (by decide) (by decide) rfl rfl
